import Mathlib

/-!
Verification development for the HTML template-composition engine in
`src/build-html.js`.  The engine is shallowly embedded over `List Char`:
the two regex passes of `processTemplate` are modelled by executable
scanners that follow the backtracking semantics of the source regexes,
the module-level `includedFiles` set and `fileCache` map become explicit
state, and `buildHTML` is modelled over an association-list file store.
-/

namespace BuildJs

/-- Text is modelled as a list of characters (JS strings). -/
abbrev Str := List Char

/-- The opening brace character, written by code so that marker strings can
be assembled without brace-bearing string literals. -/
def lb : Char := '\x7b'

/-- The closing brace character. -/
def rb : Char := '\x7d'

/-- Whitespace test matching the characters of the JS regex class `\s`
(restricted to ASCII, which covers every template in play). -/
def isWs (c : Char) : Bool :=
  c == ' ' || c == '\t' || c == '\n' || c == '\r' || c == '\x0b' || c == '\x0c'

/-- Leading whitespace of a string. -/
def lws (s : Str) : Str := s.takeWhile isWs

/-- Strip leading whitespace. -/
def ltrim (s : Str) : Str := s.dropWhile isWs

/-- Strip trailing whitespace. -/
def rtrim (s : Str) : Str := (ltrim s.reverse).reverse

/-- Trailing whitespace of a string. -/
def tws (s : Str) : Str := (lws s.reverse).reverse

/-- JS `String.prototype.trim` (both ends). -/
def trim (s : Str) : Str := rtrim (ltrim s)

/-- `dropPre p s` returns `some r` with `s = p ++ r` when `p` is a prefix
of `s`, and `none` otherwise. -/
def dropPre : Str → Str → Option Str
  | [], s => some s
  | _ :: _, [] => none
  | a :: as, b :: bs => if a = b then dropPre as bs else none

/-- Boolean prefix test (JS `String.prototype.startsWith`). -/
def startsW (p s : Str) : Bool := (dropPre p s).isSome

theorem dropPre_sound : ∀ p s r, dropPre p s = some r → s = p ++ r := by
  intro p
  induction p with
  | nil => intro s r h; simp [dropPre] at h; simp [h]
  | cons a as ih =>
    intro s r h
    match s with
    | [] => simp [dropPre] at h
    | b :: bs =>
      by_cases hab : a = b
      · subst hab
        simp only [dropPre, if_pos rfl] at h
        simpa using ih bs r h
      · simp [dropPre, hab] at h

theorem dropPre_append : ∀ p r, dropPre p (p ++ r) = some r := by
  intro p
  induction p with
  | nil => intro r; simp [dropPre]
  | cons a as ih => intro r; simp [dropPre, ih]

theorem dropPre_length {p s r : Str} (h : dropPre p s = some r) :
    s.length = p.length + r.length := by
  have := dropPre_sound p s r h
  subst this; simp [List.length_append]

/-! ## Node `path` (POSIX) -/

/-- Split a path on `'/'` (auxiliary, accumulator reversed). -/
def splitSegAux : Str → Str → List Str
  | [], acc => [acc.reverse]
  | c :: r, acc => if c = '/' then acc.reverse :: splitSegAux r [] else splitSegAux r (c :: acc)

/-- Split a path on `'/'` into segments. -/
def splitSeg (s : Str) : List Str := splitSegAux s []

/-- Core of Node's `path.normalize`: drop empty and `"."` segments and
resolve `".."` against the accumulated prefix; `allowUp` keeps leading
`".."` segments for relative paths. -/
def normSegs (allowUp : Bool) : List Str → List Str → List Str
  | acc, [] => acc.reverse
  | acc, s :: rest =>
    if s = [] ∨ s = ['.'] then normSegs allowUp acc rest
    else if s = ['.', '.'] then
      match acc with
      | top :: acc' =>
        if top = ['.', '.'] then normSegs allowUp (s :: acc) rest
        else normSegs allowUp acc' rest
      | [] => if allowUp then normSegs allowUp [s] rest else normSegs allowUp [] rest
    else normSegs allowUp (s :: acc) rest

/-- Join segments with `'/'`. -/
def joinSegs : List Str → Str
  | [] => []
  | [s] => s
  | s :: rest => s ++ '/' :: joinSegs rest

/-- Node `path.isAbsolute` (POSIX). -/
def isAbsolute (p : Str) : Bool := p.head? == some '/'

/-- Node `path.normalize` (POSIX; trailing-slash preservation omitted —
no path in the engine carries a trailing slash). -/
def normalizePath (p : Str) : Str :=
  if p = [] then ['.']
  else
    let core := joinSegs (normSegs (!isAbsolute p) [] (splitSeg p))
    if isAbsolute p then '/' :: core
    else if core = [] then ['.'] else core

/-- Node `path.join a b` (joins with a separator, then normalizes). -/
def joinPath (a b : Str) : Str := normalizePath (a ++ '/' :: b)

/-- Node `path.dirname` (POSIX). -/
def dirname (p : Str) : Str :=
  let r1 := p.reverse.dropWhile (· = '/')
  let r2 := r1.dropWhile (· ≠ '/')
  let r3 := r2.dropWhile (· = '/')
  if r3 = [] then (if isAbsolute p then ['/'] else ['.'])
  else r3.reverse

/-! ## Engine constants (`src/build-html.js` lines 4-5) -/

/-- `SRC_DIR = path.join(__dirname, 'docs', 'html')`; the script directory
is an arbitrary absolute path, fixed here. -/
def SRC_DIR : Str := '/' :: ("repo/docs/html".data)

/-- `OUTPUT_FILE = path.join(__dirname, 'docs', 'index.html')`. -/
def OUTPUT_FILE : Str := '/' :: ("repo/docs/index.html".data)

/-- Path used to load the root template (`layoutPath`, line 202). -/
def layoutPath : Str := joinPath SRC_DIR ("layout.html".data)

/-- Directive path resolution (lines 71-79; the identical logic is
repeated verbatim at lines 115-122 for the inline pass): a `partials/` or
`sections/` prefix resolves from `SRC_DIR`, an absolute path is used
as-is, anything else resolves against the including fragment's
directory. -/
def resolvePath (baseDir trimmedPath : Str) : Str :=
  if startsW ("partials/".data) trimmedPath || startsW ("sections/".data) trimmedPath then
    joinPath SRC_DIR trimmedPath
  else if isAbsolute trimmedPath then trimmedPath
  else joinPath baseDir trimmedPath

/-! ## Directive scanners

The two regex passes of `processTemplate` (lines 68 and 110):

* block pass: `\{\{>\s*([^}]+)\s*\}\}([\s\S]*?)\{\{\/\1\s*\}\}`
* inline pass: `\{\{>\s*([^}]+)\s*\}\}`

modelled with the exact backtracking order of a JS regex engine:
the opening `\s*` and `[^}]+` are greedy, the body is lazy, and the
closing marker must literally repeat the captured group. -/

/-- Match an opening marker at the head of the text: three characters
`{{>`, then a nonempty run of non-`}` characters (the capture), then
`}}`.  Returns `(interior, rest)`.  The two `\s*` around the capture only
affect which split of the interior is captured, which is resolved by the
candidate search below. -/
def openAt : Str → Option (Str × Str)
  | c1 :: c2 :: c3 :: rest =>
    if c1 = lb ∧ c2 = lb ∧ c3 = '>' then
      match rest.dropWhile (· ≠ rb) with
      | r1 :: r2 :: tail =>
        if r1 = rb ∧ r2 = rb ∧ rest.takeWhile (· ≠ rb) ≠ [] then
          some (rest.takeWhile (· ≠ rb), tail)
        else none
      | _ => none
    else none
  | _ => none

/-- Match the closing marker `{{/` ++ `t` ++ `\s*` ++ `}}` at the head of
the text (`t` is the backreferenced capture).  Greedily consuming the
whitespace is exact because `}` is not whitespace. -/
def closeAt (t : Str) : Str → Option Str
  | c1 :: c2 :: c3 :: rest =>
    if c1 = lb ∧ c2 = lb ∧ c3 = '/' then
      match dropPre t rest with
      | some r =>
        match r.dropWhile isWs with
        | r1 :: r2 :: tail => if r1 = rb ∧ r2 = rb then some tail else none
        | _ => none
      | none => none
    else none
  | _ => none

/-- Lazy search for the closing marker: the body grows one character at a
time, exactly like the lazy `([\s\S]*?)` of the source regex.  Returns
`(body, rest-after-close)`. -/
def findClose (t : Str) (s : Str) : Option (Str × Str) :=
  match closeAt t s with
  | some tail => some ([], tail)
  | none =>
    match s with
    | [] => none
    | c :: s' =>
      match findClose t s' with
      | some (body, tail) => some (c :: body, tail)
      | none => none

/-- Splits of a string obtained by stripping trailing whitespace one
character at a time, longest first — the backtracking order in which the
greedy `[^}]+` shrinks against the second `\s*` (reversed input). -/
def wsChainRev : Str → List Str
  | [] => []
  | c :: rest => (c :: rest) :: (if isWs c then wsChainRev rest else [])

/-- `wsChain s` lists `s` and its trailing-whitespace-stripped variants,
longest first; all elements are nonempty. -/
def wsChain (s : Str) : List Str := (wsChainRev s.reverse).map List.reverse

/-- All capture candidates for an opening-marker interior, in the order a
backtracking engine tries them: the leading `\s*` shrinks last (outermost
choice point), the greedy `[^}]+` shrinks first. -/
def candidates (interior : Str) : List Str :=
  (List.range ((lws interior).length + 1)).reverse.flatMap
    (fun a => wsChain (interior.drop a))

/-- First `some` produced by `f` along a list. -/
def firstSome {α β : Type} (f : α → Option β) : List α → Option β
  | [] => none
  | x :: xs => match f x with | some y => some y | none => firstSome f xs

/-- Match a whole block directive at the head of the text; returns
`(capture, body, rest-after-close)`. -/
def blockAt (s : Str) : Option (Str × Str × Str) :=
  match openAt s with
  | none => none
  | some (interior, rest) =>
    firstSome (fun t =>
      match findClose t rest with
      | some (body, tail) => some (t, body, tail)
      | none => none) (candidates interior)

theorem length_dropWhile_le (p : Char → Bool) (l : Str) :
    (l.dropWhile p).length ≤ l.length := by
  induction l with
  | nil => simp
  | cons c l ih =>
    rw [List.dropWhile_cons]
    split
    · simp only [List.length_cons]; omega
    · simp

theorem openAt_length {s i r : Str} (h : openAt s = some (i, r)) :
    r.length < s.length := by
  unfold openAt at h
  split at h
  next c1 c2 c3 rest =>
    split at h
    · split at h
      next r1 r2 tail heq =>
        split at h
        · simp only [Option.some.injEq, Prod.mk.injEq] at h
          obtain ⟨hi, hr⟩ := h
          subst hr
          have h1 : (rest.dropWhile (· ≠ rb)).length = tail.length + 2 := by
            rw [heq]; simp
          have h2 := length_dropWhile_le (· ≠ rb) rest
          simp only [List.length_cons]
          omega
        · simp at h
      next => simp at h
    · simp at h
  next => simp at h

theorem closeAt_length {t s r : Str} (h : closeAt t s = some r) :
    r.length < s.length := by
  unfold closeAt at h
  split at h
  next c1 c2 c3 rest =>
    split at h
    · split at h
      next r0 hp =>
        have hlen0 : r0.length ≤ rest.length := by
          have := dropPre_length hp; omega
        split at h
        next r1 r2 tail heq =>
          split at h
          · simp only [Option.some.injEq] at h
            subst h
            have h1 : (r0.dropWhile isWs).length = tail.length + 2 := by
              rw [heq]; simp
            have h2 := length_dropWhile_le isWs r0
            simp only [List.length_cons]
            omega
          · simp at h
        next => simp at h
      next => simp at h
    · simp at h
  next => simp at h

theorem findClose_length {t s b r : Str} (h : findClose t s = some (b, r)) :
    r.length < s.length := by
  induction s generalizing b r with
  | nil =>
    rw [findClose] at h
    have hc : closeAt t ([] : Str) = none := rfl
    rw [hc] at h
    simp at h
  | cons c s' ih =>
    rw [findClose] at h
    rcases hc : closeAt t (c :: s') with _ | tail
    · rw [hc] at h
      rcases hf : findClose t s' with _ | ⟨b', r'⟩
      · rw [hf] at h; simp at h
      · rw [hf] at h
        simp only [Option.some.injEq, Prod.mk.injEq] at h
        obtain ⟨hb, hr⟩ := h
        subst hr
        have := ih hf
        simp only [List.length_cons]
        omega
    · rw [hc] at h
      simp only [Option.some.injEq, Prod.mk.injEq] at h
      obtain ⟨hb, hr⟩ := h
      subst hr
      exact closeAt_length hc

theorem firstSome_findClose {rest : Str} {cs : List Str} {t b r : Str}
    (h : firstSome (fun t =>
      match findClose t rest with
      | some (body, tail) => some (t, body, tail)
      | none => none) cs = some (t, b, r)) :
    findClose t rest = some (b, r) := by
  induction cs with
  | nil => simp [firstSome] at h
  | cons t0 ts ih =>
    rw [firstSome] at h
    rcases hf : findClose t0 rest with _ | ⟨b', tail⟩
    · simp only [hf] at h
      exact ih h
    · simp only [hf] at h
      simp only [Option.some.injEq, Prod.mk.injEq] at h
      obtain ⟨ht, hb, hr⟩ := h
      subst ht; subst hb; subst hr
      exact hf

theorem blockAt_length {s t b r : Str} (h : blockAt s = some (t, b, r)) :
    r.length < s.length := by
  rw [blockAt] at h
  rcases ho : openAt s with _ | ⟨i, rest⟩
  · rw [ho] at h; simp at h
  · rw [ho] at h
    have hrest := openAt_length ho
    have hf := firstSome_findClose h
    have := findClose_length hf
    omega

/-- Fuel-indexed scan for the block pass; the wrapper `splitBlocks`
passes the text's length as fuel, which the length bounds above show is
always sufficient, so the fuel-exhausted branch is dead code. -/
def splitBlocksF : Nat → Str → List (Char ⊕ (Str × Str))
  | _, [] => []
  | 0, _ :: _ => []
  | n + 1, c :: s' =>
    match blockAt (c :: s') with
    | some (t, body, rest) => Sum.inr (t, body) :: splitBlocksF n rest
    | none => Sum.inl c :: splitBlocksF n s'

/-- The block pass (first `replace`, line 68), as a pure segmentation of
the text: each position either begins a block match (recorded as
`Sum.inr (capture, body)`) or contributes a literal character.  A failed
opening advances one character, exactly like a regex engine's scan;
matches found in the original text are consumed whole, and replacement
text is never rescanned by the same pass — JS `replace` semantics. -/
def splitBlocks (s : Str) : List (Char ⊕ (Str × Str)) := splitBlocksF s.length s

/-- Fuel-indexed scan for the inline pass. -/
def splitInlinesF : Nat → Str → List (Char ⊕ Str)
  | _, [] => []
  | 0, _ :: _ => []
  | n + 1, c :: s' =>
    match openAt (c :: s') with
    | some (i, rest) => Sum.inr i :: splitInlinesF n rest
    | none => Sum.inl c :: splitInlinesF n s'

/-- The inline pass (second `replace`, line 110) as a pure segmentation:
`Sum.inr interior` for each inline-directive match. -/
def splitInlines (s : Str) : List (Char ⊕ Str) := splitInlinesF s.length s

theorem splitBlocksF_congr :
    ∀ (m n : Nat) (s : Str), s.length ≤ m → s.length ≤ n →
      splitBlocksF m s = splitBlocksF n s := by
  intro m
  induction m with
  | zero =>
    intro n s hm _
    have : s = [] := List.length_eq_zero.mp (Nat.le_zero.mp hm)
    subst this
    cases n <;> rfl
  | succ m ih =>
    intro n s hm hn
    cases s with
    | nil => cases n <;> rfl
    | cons c s' =>
      cases n with
      | zero => simp at hn
      | succ n' =>
        simp only [List.length_cons] at hm hn
        rw [splitBlocksF, splitBlocksF]
        rcases hb : blockAt (c :: s') with _ | ⟨t, body, rest⟩
        · simp only [ih n' s' (by omega) (by omega)]
        · have hlt := blockAt_length hb
          simp only [List.length_cons] at hlt
          simp only [ih n' rest (by omega) (by omega)]

theorem splitInlinesF_congr :
    ∀ (m n : Nat) (s : Str), s.length ≤ m → s.length ≤ n →
      splitInlinesF m s = splitInlinesF n s := by
  intro m
  induction m with
  | zero =>
    intro n s hm _
    have : s = [] := List.length_eq_zero.mp (Nat.le_zero.mp hm)
    subst this
    cases n <;> rfl
  | succ m ih =>
    intro n s hm hn
    cases s with
    | nil => cases n <;> rfl
    | cons c s' =>
      cases n with
      | zero => simp at hn
      | succ n' =>
        simp only [List.length_cons] at hm hn
        rw [splitInlinesF, splitInlinesF]
        rcases hb : openAt (c :: s') with _ | ⟨i, rest⟩
        · simp only [ih n' s' (by omega) (by omega)]
        · have hlt := openAt_length hb
          simp only [List.length_cons] at hlt
          simp only [ih n' rest (by omega) (by omega)]

theorem splitBlocks_nil : splitBlocks [] = [] := rfl

theorem splitBlocks_cons_some {c : Char} {s' t b rest : Str}
    (h : blockAt (c :: s') = some (t, b, rest)) :
    splitBlocks (c :: s') = Sum.inr (t, b) :: splitBlocks rest := by
  have hlt := blockAt_length h
  simp only [List.length_cons] at hlt
  rw [splitBlocks, List.length_cons, splitBlocksF, h]
  dsimp only
  rw [splitBlocks, splitBlocksF_congr s'.length rest.length rest (by omega) le_rfl]

theorem splitBlocks_cons_none {c : Char} {s' : Str}
    (h : blockAt (c :: s') = none) :
    splitBlocks (c :: s') = Sum.inl c :: splitBlocks s' := by
  rw [splitBlocks, List.length_cons, splitBlocksF, h]
  rfl

theorem splitInlines_nil : splitInlines [] = [] := rfl

theorem splitInlines_cons_some {c : Char} {s' i rest : Str}
    (h : openAt (c :: s') = some (i, rest)) :
    splitInlines (c :: s') = Sum.inr i :: splitInlines rest := by
  have hlt := openAt_length h
  simp only [List.length_cons] at hlt
  rw [splitInlines, List.length_cons, splitInlinesF, h]
  dsimp only
  rw [splitInlines, splitInlinesF_congr s'.length rest.length rest (by omega) le_rfl]

theorem splitInlines_cons_none {c : Char} {s' : Str}
    (h : openAt (c :: s') = none) :
    splitInlines (c :: s') = Sum.inl c :: splitInlines s' := by
  rw [splitInlines, List.length_cons, splitInlinesF, h]
  rfl

/-- Leftover-directive detection used by `validateHTML` (line 171): the
same pattern as the inline pass, anywhere in the text. -/
def hasLeftoverDirective (s : Str) : Bool :=
  match s with
  | [] => false
  | c :: s' => (openAt (c :: s')).isSome || hasLeftoverDirective s'

/-! ## Body substitution (`{{content}}`, line 94) -/

/-- The literal placeholder pattern of the regex `\{\{content\}\}`. -/
def contentPH : Str := lb :: lb :: (("content".data) ++ [rb, rb])

/-- JS `GetSubstitution` for a *string* second argument of `replace`
(ECMA-262).  The pattern has no capture groups and no named groups, so
only `$$`, `$&`, a dollar followed by a backtick (text before the match)
and a dollar followed by an apostrophe (text after the match) are
special; every other `$` is literal. -/
def dollarSubst (matched before after : Str) : Str → Str
  | [] => []
  | [c] => [c]
  | c :: d :: r =>
    if c = '$' then
      if d = '$' then '$' :: dollarSubst matched before after r
      else if d = '&' then matched ++ dollarSubst matched before after r
      else if d = '\x60' then before ++ dollarSubst matched before after r
      else if d = '\x27' then after ++ dollarSubst matched before after r
      else c :: dollarSubst matched before after (d :: r)
    else c :: dollarSubst matched before after (d :: r)

/-- Fuel-indexed global scan for `replace(/\{\{content\}\}/g, bodyT)`;
`pre` is the reversed portion of the subject already passed (needed as
the before-context of `$`-substitution).  The wrapper passes the text's
length as fuel, always sufficient. -/
def replaceContentF (bodyT : Str) : Nat → Str → Str → Str
  | _, _, [] => []
  | 0, _, s => s
  | n + 1, pre, c :: s' =>
    match dropPre contentPH (c :: s') with
    | some rest =>
      dollarSubst contentPH pre.reverse rest bodyT ++
        replaceContentF bodyT n (contentPH.reverse ++ pre) rest
    | none => c :: replaceContentF bodyT n (c :: pre) s'

/-- `partialContent.replace(/\{\{content\}\}/g, content.trim())`
(line 94; the JS variable `partialContent` is `fragText` below). -/
def replaceContent (s body : Str) : Str := replaceContentF (trim body) s.length [] s

theorem replaceContentF_congr (bodyT : Str) :
    ∀ (m n : Nat) (pre s : Str), s.length ≤ m → s.length ≤ n →
      replaceContentF bodyT m pre s = replaceContentF bodyT n pre s := by
  intro m
  induction m with
  | zero =>
    intro n pre s hm _
    have : s = [] := List.length_eq_zero.mp (Nat.le_zero.mp hm)
    subst this
    cases n <;> rfl
  | succ m ih =>
    intro n pre s hm hn
    cases s with
    | nil => cases n <;> rfl
    | cons c s' =>
      cases n with
      | zero => simp at hn
      | succ n' =>
        simp only [List.length_cons] at hm hn
        rw [replaceContentF, replaceContentF]
        rcases hd : dropPre contentPH (c :: s') with _ | rest
        · simp only [ih n' (c :: pre) s' (by omega) (by omega)]
        · have hlen := dropPre_length hd
          have h11 : contentPH.length = 11 := rfl
          simp only [List.length_cons] at hlen
          simp only [ih n' (contentPH.reverse ++ pre) rest (by omega) (by omega)]

/-! ## Build state and `readFile` -/

/-- The three fatal error kinds thrown by the engine. -/
inductive BuildError where
  | fileNotFound (p : Str)
  | circular (p : Str)
  | maxDepth
deriving DecidableEq

deriving instance DecidableEq for Except

/-- Per-build mutable state: the file store (read-only during a build),
the module-level `fileCache` map and `includedFiles` set (lines 26-27),
and a storage-read counter instrumenting `fs.readFileSync` calls. -/
structure BState where
  fs : List (Str × Str)
  cache : List (Str × Str)
  included : List Str
  reads : Nat
deriving DecidableEq

/-- First-match association-list lookup (JS `Map.get` / `Set.has` on
string keys; the engine never stores duplicate keys). -/
def lookupA (m : List (Str × Str)) (k : Str) : Option Str :=
  match m with
  | [] => none
  | (k', v) :: m' => if k' = k then some v else lookupA m' k

/-- `readFile` (lines 32-56): normalize the path, consult the cache, then
check existence and read from storage; a successful read is counted and
cached, a missing file throws `File not found` without touching the
cache.  (The source's separate `readFileSync` failure branch cannot occur
against a map-backed store: existence and readability coincide.) -/
def readFile (st : BState) (filePath : Str) : Except BuildError Str × BState :=
  let normalizedPath := normalizePath filePath
  match lookupA st.cache normalizedPath with
  | some content => (.ok content, st)
  | none =>
    match lookupA st.fs normalizedPath with
    | none => (.error (.fileNotFound normalizedPath), st)
    | some content =>
      (.ok content,
        { st with cache := (normalizedPath, content) :: st.cache, reads := st.reads + 1 })

/-! ## `processTemplate` (lines 61-151)

The recursion is made structural with a `fuel` argument; the top-level
call passes `21`, so `fuel + depth ≥ 21` holds at every reachable call
and the `fuel = 0` branch is dead code: whenever it could be reached the
`depth > 20` guard (line 63) has already returned. -/

/-- The type of the recursive continuation handed to the pass helpers:
`processTemplate` at the next depth. -/
abbrev Recur := Str → Str → Nat → BState → Except BuildError Str × BState

/-- The block-pass callback (lines 83-106): resolve the path, reject
re-entry, push onto `includedFiles`, read, substitute `{{content}}`,
recurse (through `recur`) at `depth + 1`, and pop on both the success
and the error path. -/
def blockStep (recur : Recur) (fp body baseDir : Str) (depth : Nat) (st : BState) :
    Except BuildError Str × BState :=
  let normalizedPath := normalizePath (resolvePath baseDir (trim fp))
  if normalizedPath ∈ st.included then (.error (.circular normalizedPath), st)
  else
    match readFile { st with included := normalizedPath :: st.included } normalizedPath with
    | (.error e, st2) => (.error e, { st2 with included := st2.included.erase normalizedPath })
    | (.ok fragText, st2) =>
      match recur (replaceContent fragText body) (dirname normalizedPath) (depth + 1) st2 with
      | (.error e, st3) => (.error e, { st3 with included := st3.included.erase normalizedPath })
      | (.ok out, st3) => (.ok out, { st3 with included := st3.included.erase normalizedPath })

/-- Run the block-pass callback over the segmentation, splicing
replacement text; an exception from a callback aborts the whole pass
(lines 68-107). -/
def goBlocks (recur : Recur) (segs : List (Char ⊕ (Str × Str))) (baseDir : Str) (depth : Nat)
    (st : BState) : Except BuildError Str × BState :=
  match segs with
  | [] => (.ok [], st)
  | Sum.inl c :: rest =>
    match goBlocks recur rest baseDir depth st with
    | (.ok out, st') => (.ok (c :: out), st')
    | e => e
  | Sum.inr (fp, body) :: rest =>
    match blockStep recur fp body baseDir depth st with
    | (.error e, st') => (.error e, st')
    | (.ok repl, st') =>
      match goBlocks recur rest baseDir depth st' with
      | (.ok out, st'') => (.ok (repl ++ out), st'')
      | e => e

/-- The inline-pass callback (lines 126-149): identical to the block
callback but without body substitution. -/
def inlineStep (recur : Recur) (fp baseDir : Str) (depth : Nat) (st : BState) :
    Except BuildError Str × BState :=
  let normalizedPath := normalizePath (resolvePath baseDir (trim fp))
  if normalizedPath ∈ st.included then (.error (.circular normalizedPath), st)
  else
    match readFile { st with included := normalizedPath :: st.included } normalizedPath with
    | (.error e, st2) => (.error e, { st2 with included := st2.included.erase normalizedPath })
    | (.ok fragText, st2) =>
      match recur fragText (dirname normalizedPath) (depth + 1) st2 with
      | (.error e, st3) => (.error e, { st3 with included := st3.included.erase normalizedPath })
      | (.ok out, st3) => (.ok out, { st3 with included := st3.included.erase normalizedPath })

/-- Run the inline-pass callback over the segmentation (lines 110-150). -/
def goInlines (recur : Recur) (segs : List (Char ⊕ Str)) (baseDir : Str) (depth : Nat)
    (st : BState) : Except BuildError Str × BState :=
  match segs with
  | [] => (.ok [], st)
  | Sum.inl c :: rest =>
    match goInlines recur rest baseDir depth st with
    | (.ok out, st') => (.ok (c :: out), st')
    | e => e
  | Sum.inr fp :: rest =>
    match inlineStep recur fp baseDir depth st with
    | (.error e, st') => (.error e, st')
    | (.ok repl, st') =>
      match goInlines recur rest baseDir depth st' with
      | (.ok out, st'') => (.ok (repl ++ out), st'')
      | e => e

/-- Depth guard (line 63), then the block pass (line 68), then the inline
pass (line 110) on the block pass's output; recursion is structural on
the fuel. -/
def processTemplate : Nat → Str → Str → Nat → BState → Except BuildError Str × BState
  | fuel, template, baseDir, depth, st =>
    if depth > 20 then (.error .maxDepth, st)
    else
      match fuel with
      | 0 => (.error .maxDepth, st)
      | f + 1 =>
        match goBlocks (processTemplate f) (splitBlocks template) baseDir depth st with
        | (.error e, st') => (.error e, st')
        | (.ok t1, st') => goInlines (processTemplate f) (splitInlines t1) baseDir depth st'

/-! ## State-preservation invariants

Every path pushed onto `includedFiles` is popped again on success and on
every error-propagation path, the store is never written during
resolution, and the cache only ever receives entries copied from the
store. -/

/-- Every cache entry agrees with the store: the invariant of a build
that starts with a cleared cache. -/
def CacheOK (st : BState) : Prop :=
  ∀ k v, lookupA st.cache k = some v → lookupA st.fs k = some v

/-- Relation between the state a pass receives and the state it hands
back: store untouched, inclusion stack restored, cache still
store-consistent. -/
def Pres (st st' : BState) : Prop :=
  st'.fs = st.fs ∧ st'.included = st.included ∧ (CacheOK st → CacheOK st')

theorem Pres.refl (st : BState) : Pres st st := ⟨rfl, rfl, fun h => h⟩

theorem Pres.trans {s1 s2 s3 : BState} (h12 : Pres s1 s2) (h23 : Pres s2 s3) : Pres s1 s3 :=
  ⟨h23.1.trans h12.1, h23.2.1.trans h12.2.1, fun h => h23.2.2 (h12.2.2 h)⟩

theorem readFile_fs (st : BState) (p : Str) : ((readFile st p).2).fs = st.fs := by
  rw [readFile]
  rcases lookupA st.cache (normalizePath p) with _ | c
  · rcases lookupA st.fs (normalizePath p) with _ | c <;> rfl
  · rfl

theorem readFile_included (st : BState) (p : Str) :
    ((readFile st p).2).included = st.included := by
  rw [readFile]
  rcases lookupA st.cache (normalizePath p) with _ | c
  · rcases lookupA st.fs (normalizePath p) with _ | c <;> rfl
  · rfl

theorem readFile_cacheOK {st : BState} (p : Str) (h : CacheOK st) :
    CacheOK (readFile st p).2 := by
  rw [readFile]
  rcases hc : lookupA st.cache (normalizePath p) with _ | c
  · rcases hf : lookupA st.fs (normalizePath p) with _ | c
    · exact h
    · intro k v hk
      simp only [lookupA] at hk
      by_cases hkp : normalizePath p = k
      · rw [if_pos hkp] at hk
        obtain rfl := Option.some.injEq .. ▸ hk
        exact hkp ▸ hf
      · rw [if_neg hkp] at hk
        exact h k v hk
  · exact h

theorem readFile_ok_content {st : BState} {p c : Str} (h : CacheOK st)
    (hr : (readFile st p).1 = .ok c) :
    lookupA st.fs (normalizePath p) = some c := by
  rw [readFile] at hr
  rcases hc : lookupA st.cache (normalizePath p) with _ | c'
  · rw [hc] at hr
    rcases hf : lookupA st.fs (normalizePath p) with _ | c'
    · rw [hf] at hr; simp at hr
    · rw [hf] at hr
      simp only [Except.ok.injEq] at hr
      rw [hr]
  · rw [hc] at hr
    simp only [Except.ok.injEq] at hr
    rw [← hr]
    exact h _ _ hc

theorem readFile_reads (st : BState) (p : Str) :
    ((readFile st p).2).reads ≤ st.reads + 1 := by
  rw [readFile]
  rcases lookupA st.cache (normalizePath p) with _ | c
  · rcases lookupA st.fs (normalizePath p) with _ | c <;> simp
  · simp

theorem cacheOK_set_included {st : BState} (l : List Str) (h : CacheOK st) :
    CacheOK { st with included := l } := h

theorem blockStep_pres {recur : Recur}
    (hrec : ∀ t bd d st, Pres st (recur t bd d st).2) :
    ∀ fp body bd d st, Pres st (blockStep recur fp body bd d st).2 := by
  intro fp body bd d st
  simp only [blockStep]
  by_cases hmem : normalizePath (resolvePath bd (trim fp)) ∈ st.included
  · rw [if_pos hmem]; exact Pres.refl st
  · rw [if_neg hmem]
    set q := normalizePath (resolvePath bd (trim fp)) with hqdef
    set st1 : BState := { st with included := q :: st.included } with hst1
    rcases hrf : readFile st1 q with ⟨res, st2⟩
    have h1fs : st2.fs = st.fs := by
      have h := readFile_fs st1 q; rw [hrf] at h; exact h
    have h1inc : st2.included = q :: st.included := by
      have h := readFile_included st1 q; rw [hrf] at h; exact h
    have h1cok : CacheOK st → CacheOK st2 := by
      intro h
      have h2 := readFile_cacheOK q (@cacheOK_set_included st (q :: st.included) h)
      rw [hrf] at h2; exact h2
    cases res with
    | error e =>
      dsimp only
      exact ⟨h1fs, by rw [h1inc]; exact List.erase_cons_head .., h1cok⟩
    | ok fragText =>
      dsimp only
      rcases hrc : recur (replaceContent fragText body) (dirname q) (d + 1) st2 with ⟨res3, st3⟩
      have hr : Pres st2 st3 := by
        have h := hrec (replaceContent fragText body) (dirname q) (d + 1) st2
        rw [hrc] at h; exact h
      cases res3 with
      | error e =>
        dsimp only
        exact ⟨hr.1.trans h1fs, by rw [hr.2.1, h1inc]; exact List.erase_cons_head ..,
          fun h => hr.2.2 (h1cok h)⟩
      | ok out =>
        dsimp only
        exact ⟨hr.1.trans h1fs, by rw [hr.2.1, h1inc]; exact List.erase_cons_head ..,
          fun h => hr.2.2 (h1cok h)⟩

theorem inlineStep_pres {recur : Recur}
    (hrec : ∀ t bd d st, Pres st (recur t bd d st).2) :
    ∀ fp bd d st, Pres st (inlineStep recur fp bd d st).2 := by
  intro fp bd d st
  simp only [inlineStep]
  by_cases hmem : normalizePath (resolvePath bd (trim fp)) ∈ st.included
  · rw [if_pos hmem]; exact Pres.refl st
  · rw [if_neg hmem]
    set q := normalizePath (resolvePath bd (trim fp)) with hqdef
    set st1 : BState := { st with included := q :: st.included } with hst1
    rcases hrf : readFile st1 q with ⟨res, st2⟩
    have h1fs : st2.fs = st.fs := by
      have h := readFile_fs st1 q; rw [hrf] at h; exact h
    have h1inc : st2.included = q :: st.included := by
      have h := readFile_included st1 q; rw [hrf] at h; exact h
    have h1cok : CacheOK st → CacheOK st2 := by
      intro h
      have h2 := readFile_cacheOK q (@cacheOK_set_included st (q :: st.included) h)
      rw [hrf] at h2; exact h2
    cases res with
    | error e =>
      dsimp only
      exact ⟨h1fs, by rw [h1inc]; exact List.erase_cons_head .., h1cok⟩
    | ok fragText =>
      dsimp only
      rcases hrc : recur fragText (dirname q) (d + 1) st2 with ⟨res3, st3⟩
      have hr : Pres st2 st3 := by
        have h := hrec fragText (dirname q) (d + 1) st2
        rw [hrc] at h; exact h
      cases res3 with
      | error e =>
        dsimp only
        exact ⟨hr.1.trans h1fs, by rw [hr.2.1, h1inc]; exact List.erase_cons_head ..,
          fun h => hr.2.2 (h1cok h)⟩
      | ok out =>
        dsimp only
        exact ⟨hr.1.trans h1fs, by rw [hr.2.1, h1inc]; exact List.erase_cons_head ..,
          fun h => hr.2.2 (h1cok h)⟩

theorem goBlocks_pres {recur : Recur}
    (hrec : ∀ t bd d st, Pres st (recur t bd d st).2) :
    ∀ segs bd d st, Pres st (goBlocks recur segs bd d st).2 := by
  intro segs
  induction segs with
  | nil => intro bd d st; exact Pres.refl st
  | cons seg rest ih =>
    intro bd d st
    cases seg with
    | inl c =>
      rw [goBlocks]
      have h1 := ih bd d st
      rcases hb : goBlocks recur rest bd d st with ⟨res, st'⟩
      rw [hb] at h1
      cases res with
      | ok out => exact h1
      | error e => exact h1
    | inr m =>
      rcases m with ⟨fp, body⟩
      rw [goBlocks]
      have h1 := blockStep_pres hrec fp body bd d st
      rcases hb : blockStep recur fp body bd d st with ⟨res, st'⟩
      rw [hb] at h1
      cases res with
      | error e => exact h1
      | ok repl =>
        dsimp only
        have h2 := ih bd d st'
        rcases hb2 : goBlocks recur rest bd d st' with ⟨res2, st''⟩
        rw [hb2] at h2
        cases res2 with
        | ok out => exact h1.trans h2
        | error e => exact h1.trans h2

theorem goInlines_pres {recur : Recur}
    (hrec : ∀ t bd d st, Pres st (recur t bd d st).2) :
    ∀ segs bd d st, Pres st (goInlines recur segs bd d st).2 := by
  intro segs
  induction segs with
  | nil => intro bd d st; exact Pres.refl st
  | cons seg rest ih =>
    intro bd d st
    cases seg with
    | inl c =>
      rw [goInlines]
      have h1 := ih bd d st
      rcases hb : goInlines recur rest bd d st with ⟨res, st'⟩
      rw [hb] at h1
      cases res with
      | ok out => exact h1
      | error e => exact h1
    | inr fp =>
      rw [goInlines]
      have h1 := inlineStep_pres hrec fp bd d st
      rcases hb : inlineStep recur fp bd d st with ⟨res, st'⟩
      rw [hb] at h1
      cases res with
      | error e => exact h1
      | ok repl =>
        dsimp only
        have h2 := ih bd d st'
        rcases hb2 : goInlines recur rest bd d st' with ⟨res2, st''⟩
        rw [hb2] at h2
        cases res2 with
        | ok out => exact h1.trans h2
        | error e => exact h1.trans h2

theorem processTemplate_pres :
    ∀ (fuel : Nat) (t bd : Str) (d : Nat) (st : BState),
      Pres st (processTemplate fuel t bd d st).2 := by
  intro fuel
  induction fuel with
  | zero =>
    intro t bd d st
    rw [processTemplate]
    split
    · exact Pres.refl st
    · exact Pres.refl st
  | succ f ih =>
    intro t bd d st
    rw [processTemplate]
    by_cases hd : d > 20
    · rw [if_pos hd]; exact Pres.refl st
    · rw [if_neg hd]
      have h1 := @goBlocks_pres (processTemplate f) ih (splitBlocks t) bd d st
      rcases hb : goBlocks (processTemplate f) (splitBlocks t) bd d st with ⟨res1, st1⟩
      rw [hb] at h1
      cases res1 with
      | error e => exact h1
      | ok t1 =>
        have h2 := @goInlines_pres (processTemplate f) ih (splitInlines t1) bd d st1
        exact h1.trans h2

/-! ## Well-formed templates: literal text and inline directives

Used to state the completeness results: a template (or fragment) that is
a concatenation of brace-free literal text and inline directives with
brace-free nonempty path texts. -/

/-- No brace characters occur in the string. -/
def braceFree (s : Str) : Prop := ∀ c ∈ s, c ≠ lb ∧ c ≠ rb

/-- No opening brace occurs in the string. -/
def lbFree (s : Str) : Prop := ∀ c ∈ s, c ≠ lb

/-- An item of a well-formed template. -/
inductive Item where
  | lit (s : Str)
  | dir (p : Str)

/-- Text of one item: a directive renders as `{{>` ++ path ++ `}}`. -/
def renderI : Item → Str
  | .lit s => s
  | .dir p => lb :: lb :: '>' :: (p ++ [rb, rb])

/-- Text of an item list. -/
def render (items : List Item) : Str := (items.map renderI).flatten

/-- Well-formedness of one item. -/
def itemOK : Item → Prop
  | .lit s => braceFree s
  | .dir p => p ≠ [] ∧ braceFree p

/-- Well-formedness of an item list. -/
def itemsOK (items : List Item) : Prop := ∀ it ∈ items, itemOK it

/-- Inline-pass segments contributed by one item. -/
def segOf : Item → List (Char ⊕ Str)
  | .lit s => s.map Sum.inl
  | .dir p => [Sum.inr p]

theorem braceFree_cons {c : Char} {s : Str} (h : braceFree (c :: s)) :
    (c ≠ lb ∧ c ≠ rb) ∧ braceFree s :=
  ⟨h c (by simp), fun x hx => h x (by simp [hx])⟩

theorem braceFree_append {a b : Str} (ha : braceFree a) (hb : braceFree b) :
    braceFree (a ++ b) := by
  intro c hc
  rcases List.mem_append.mp hc with h | h
  · exact ha c h
  · exact hb c h

theorem openAt_nonlb {c : Char} (hc : c ≠ lb) (s : Str) : openAt (c :: s) = none := by
  match s with
  | [] => rfl
  | [c2] => rfl
  | c2 :: c3 :: rest => simp [openAt, hc]

theorem closeAt_nonlb {c : Char} (hc : c ≠ lb) (t s : Str) : closeAt t (c :: s) = none := by
  match s with
  | [] => rfl
  | [c2] => rfl
  | c2 :: c3 :: rest => simp [closeAt, hc]

theorem scan_notRb {p : Str} (hp : ∀ c ∈ p, c ≠ rb) (xs : Str) :
    (p ++ rb :: xs).takeWhile (· ≠ rb) = p ∧ (p ++ rb :: xs).dropWhile (· ≠ rb) = rb :: xs := by
  induction p with
  | nil => constructor <;> simp [List.takeWhile, List.dropWhile]
  | cons c p' ih =>
    have hc : c ≠ rb := hp c (by simp)
    have ih' := ih (fun x hx => hp x (by simp [hx]))
    constructor
    · simp only [List.cons_append, List.takeWhile_cons]
      rw [if_pos (by simpa using hc)]
      rw [ih'.1]
    · simp only [List.cons_append, List.dropWhile_cons]
      rw [if_pos (by simpa using hc)]
      exact ih'.2

theorem openAt_dir {p : Str} (hp : p ≠ []) (hbf : braceFree p) (rest : Str) :
    openAt (lb :: lb :: '>' :: (p ++ rb :: rb :: rest)) = some (p, rest) := by
  have hscan := scan_notRb (p := p) (fun c hc => (hbf c hc).2) (rb :: rest)
  rw [openAt]
  rw [if_pos ⟨rfl, rfl, rfl⟩]
  have hd : (p ++ rb :: rb :: rest).dropWhile (· ≠ rb) = rb :: rb :: rest := hscan.2
  have ht : (p ++ rb :: rb :: rest).takeWhile (· ≠ rb) = p := hscan.1
  rw [hd]
  dsimp only
  rw [ht]
  rw [if_pos ⟨rfl, rfl, hp⟩]

theorem splitInlines_append_lit {s : Str} (hs : braceFree s) (rest : Str) :
    splitInlines (s ++ rest) = s.map Sum.inl ++ splitInlines rest := by
  induction s with
  | nil => simp
  | cons c s' ih =>
    have h1 := braceFree_cons hs
    rw [List.cons_append, splitInlines_cons_none (openAt_nonlb h1.1.1 _), ih h1.2]
    simp

theorem splitInlines_render :
    ∀ items, itemsOK items →
      splitInlines (render items) = (items.map segOf).flatten := by
  intro items
  induction items with
  | nil => intro _; rfl
  | cons it rest ih =>
    intro h
    have hit : itemOK it := h it (by simp)
    have hrest : itemsOK rest := fun x hx => h x (by simp [hx])
    cases it with
    | lit s =>
      have : render (Item.lit s :: rest) = s ++ render rest := by
        simp [render, renderI]
      rw [this, splitInlines_append_lit hit (render rest), ih hrest]
      simp [segOf]
    | dir p =>
      have : render (Item.dir p :: rest) = lb :: lb :: '>' :: (p ++ rb :: rb :: render rest) := by
        simp [render, renderI]
      rw [this, splitInlines_cons_some (openAt_dir hit.1 hit.2 (render rest)), ih hrest]
      simp [segOf]

theorem firstSome_of_all_none {α β : Type} (f : α → Option β) :
    ∀ l : List α, (∀ x ∈ l, f x = none) → firstSome f l = none := by
  intro l
  induction l with
  | nil => intro _; rfl
  | cons x xs ih =>
    intro h
    rw [firstSome, h x (by simp)]
    exact ih (fun y hy => h y (by simp [hy]))

theorem firstSome_cons {α β : Type} (f : α → Option β) (x : α) (xs : List α) :
    firstSome f (x :: xs) =
      match f x with
      | some y => some y
      | none => firstSome f xs := rfl

theorem mem_takeWhile_pred {p : Char → Bool} :
    ∀ {l : Str} {c : Char}, c ∈ l.takeWhile p → p c = true := by
  intro l
  induction l with
  | nil => intro c hc; simp [List.takeWhile] at hc
  | cons d l' ih =>
    intro c hc
    rw [List.takeWhile_cons] at hc
    by_cases hd : p d
    · rw [if_pos hd] at hc
      rcases List.mem_cons.mp hc with h | h
      · rw [h]; exact hd
      · exact ih h
    · rw [if_neg hd] at hc
      simp at hc

theorem openAt_sound {s i rest : Str} (h : openAt s = some (i, rest)) :
    s = lb :: lb :: '>' :: (i ++ rb :: rb :: rest) ∧ i ≠ [] ∧ (∀ c ∈ i, c ≠ rb) := by
  unfold openAt at h
  split at h
  next c1 c2 c3 r =>
    split at h
    next hc =>
      split at h
      next r1 r2 tail heq =>
        split at h
        next hg =>
          obtain ⟨hg1, hg2, hg3⟩ := hg
          simp only [Option.some.injEq, Prod.mk.injEq] at h
          obtain ⟨hi, hrest⟩ := h
          obtain ⟨h1, h2, h3⟩ := hc
          subst h1; subst h2; subst h3; subst hg1; subst hg2
          refine ⟨?_, hi ▸ hg3, ?_⟩
          · have hdecomp : r.takeWhile (· ≠ rb) ++ r.dropWhile (· ≠ rb) = r :=
              List.takeWhile_append_dropWhile _ _
            rw [← hdecomp, heq, hi, hrest]
          · intro c hc'
            rw [← hi] at hc'
            simpa using mem_takeWhile_pred hc'
        · simp at h
      next => simp at h
    · simp at h
  next => simp at h

/-! ## Close-marker-free text: the block pass is the identity -/

/-- The text contains no occurrence of the closing-marker prefix
`{{/`. -/
def NoClose (s : Str) : Prop := ∀ pre suf, s ≠ pre ++ lb :: lb :: '/' :: suf

theorem noClose_nil : NoClose [] := by
  intro pre suf h
  exact absurd h.symm (by simp)

theorem noClose_tail {c : Char} {s : Str} (h : NoClose (c :: s)) : NoClose s := by
  intro pre suf heq
  exact h (c :: pre) suf (by rw [heq]; rfl)

theorem closeAt_noClose {s : Str} (h : NoClose s) (t : Str) : closeAt t s = none := by
  match s with
  | [] => rfl
  | [c1] => rfl
  | [c1, c2] => rfl
  | c1 :: c2 :: c3 :: rest =>
    rw [closeAt]
    by_cases hc : c1 = lb ∧ c2 = lb ∧ c3 = '/'
    · exfalso
      obtain ⟨h1, h2, h3⟩ := hc
      subst h1; subst h2; subst h3
      exact h [] rest rfl
    · rw [if_neg hc]

theorem findClose_noClose {s : Str} (h : NoClose s) (t : Str) : findClose t s = none := by
  induction s with
  | nil => rfl
  | cons c s' ih =>
    rw [findClose, closeAt_noClose h]
    dsimp only
    rw [ih (noClose_tail h)]

theorem blockAt_noClose {s : Str} (h : NoClose s) : blockAt s = none := by
  rw [blockAt]
  rcases ho : openAt s with _ | ⟨i, rest⟩
  · rfl
  · have hs := (openAt_sound ho).1
    have hrest : NoClose rest := by
      intro pre suf heq
      apply h (lb :: lb :: '>' :: (i ++ rb :: rb :: pre)) suf
      rw [hs, heq]
      simp
    change firstSome (fun t =>
      match findClose t rest with
      | some (body, tail) => some (t, body, tail)
      | none => none) (candidates i) = none
    apply firstSome_of_all_none
    intro t _
    simp only [findClose_noClose hrest]

theorem noClose_append {a b : Str} (ha : lbFree a) (hb : NoClose b) : NoClose (a ++ b) := by
  induction a with
  | nil => simpa using hb
  | cons c a' ih =>
    intro pre suf heq
    cases pre with
    | nil =>
      simp only [List.nil_append, List.cons_append, List.cons.injEq] at heq
      exact absurd heq.1 (ha c (by simp))
    | cons d pre' =>
      simp only [List.cons_append, List.cons.injEq] at heq
      exact ih (fun x hx => ha x (by simp [hx])) pre' suf heq.2

theorem rb_ne_lb : rb ≠ lb := by decide

theorem noClose_dir {p rest : Str} (hbf : braceFree p) (hrest : NoClose rest) :
    NoClose (lb :: lb :: '>' :: (p ++ rb :: rb :: rest)) := by
  have htail : NoClose ('>' :: (p ++ rb :: rb :: rest)) := by
    have hshape : '>' :: (p ++ rb :: rb :: rest) = ('>' :: p ++ [rb, rb]) ++ rest := by
      simp
    rw [hshape]
    apply noClose_append _ hrest
    intro c hc
    rcases List.mem_cons.mp hc with h | h
    · rw [h]; decide
    · rcases List.mem_append.mp h with h2 | h2
      · exact (hbf c h2).1
      · rcases List.mem_cons.mp h2 with h3 | h3
        · rw [h3]; exact rb_ne_lb
        · rcases List.mem_cons.mp h3 with h4 | h4
          · rw [h4]; exact rb_ne_lb
          · simp at h4
  intro pre suf heq
  match pre, heq with
  | [], heq =>
    simp only [List.nil_append, List.cons.injEq] at heq
    exact absurd heq.2.2.1 (by decide)
  | [d], heq =>
    simp only [List.cons_append, List.nil_append, List.cons.injEq] at heq
    exact absurd heq.2.2.1.symm (by decide)
  | d1 :: d2 :: pre', heq =>
    simp only [List.cons_append, List.cons.injEq] at heq
    exact htail pre' suf heq.2.2

theorem noClose_render : ∀ items, itemsOK items → NoClose (render items) := by
  intro items
  induction items with
  | nil => intro _; exact noClose_nil
  | cons it rest ih =>
    intro h
    have hit : itemOK it := h it (by simp)
    have hrest : itemsOK rest := fun x hx => h x (by simp [hx])
    cases it with
    | lit s =>
      have hr : render (Item.lit s :: rest) = s ++ render rest := by simp [render, renderI]
      rw [hr]
      exact noClose_append (fun c hc => (hit c hc).1) (ih hrest)
    | dir p =>
      have hr : render (Item.dir p :: rest) =
          lb :: lb :: '>' :: (p ++ rb :: rb :: render rest) := by simp [render, renderI]
      rw [hr]
      exact noClose_dir hit.2 (ih hrest)

theorem splitBlocks_noClose {s : Str} (h : NoClose s) : splitBlocks s = s.map Sum.inl := by
  induction s with
  | nil => rfl
  | cons c s' ih =>
    rw [splitBlocks_cons_none (blockAt_noClose h), ih (noClose_tail h)]
    rfl

theorem goBlocks_ident (recur : Recur) :
    ∀ (s : Str) bd d st, goBlocks recur (s.map Sum.inl) bd d st = (.ok s, st) := by
  intro s
  induction s with
  | nil => intro bd d st; rfl
  | cons c s' ih =>
    intro bd d st
    rw [List.map_cons, goBlocks, ih]

/-! ## Successful resolution of well-formed acyclic graphs -/

theorem readFile_hit {st : BState} {p c : Str} (hok : CacheOK st)
    (hfs : lookupA st.fs (normalizePath p) = some c) :
    (readFile st p).1 = .ok c := by
  rw [readFile]
  rcases hc : lookupA st.cache (normalizePath p) with _ | v
  · dsimp only
    rw [hfs]
  · dsimp only
    have hev := hok _ _ hc
    rw [hfs] at hev
    simp only [Option.some.injEq] at hev
    rw [hev]

theorem goInlines_lit_prefix (recur : Recur) :
    ∀ (s : Str) segs bd d st,
      goInlines recur (s.map Sum.inl ++ segs) bd d st =
        match goInlines recur segs bd d st with
        | (.ok out, st') => (.ok (s ++ out), st')
        | e => e := by
  intro s
  induction s with
  | nil =>
    intro segs bd d st
    rcases hg : goInlines recur segs bd d st with ⟨res, st'⟩
    simp only [List.map_nil, List.nil_append, hg]
    cases res <;> simp
  | cons c s' ih =>
    intro segs bd d st
    rw [List.map_cons, List.cons_append, goInlines, ih segs bd d st]
    rcases hg : goInlines recur segs bd d st with ⟨res, st'⟩
    cases res <;> simp

theorem inlineStep_ok {f : Nat} {fp bd : Str} {d : Nat} {st : BState} {content : Str}
    (hmem : normalizePath (resolvePath bd (trim fp)) ∉ st.included)
    (hok : CacheOK st)
    (hfs : lookupA st.fs (normalizePath (normalizePath (resolvePath bd (trim fp)))) =
      some content)
    (hrec : ∀ st2 : BState, st2.fs = st.fs →
        st2.included = normalizePath (resolvePath bd (trim fp)) :: st.included → CacheOK st2 →
        ∃ out st3, processTemplate f content
            (dirname (normalizePath (resolvePath bd (trim fp)))) (d + 1) st2 = (.ok out, st3) ∧
            braceFree out) :
    ∃ out st', inlineStep (processTemplate f) fp bd d st = (.ok out, st') ∧ braceFree out ∧
      st'.fs = st.fs ∧ st'.included = st.included ∧ (CacheOK st → CacheOK st') := by
  simp only [inlineStep]
  rw [if_neg hmem]
  set q := normalizePath (resolvePath bd (trim fp)) with hq
  set st1 : BState := { st with included := q :: st.included } with hst1
  rcases hrf : readFile st1 q with ⟨res, st2⟩
  have hres : res = .ok content := by
    have h := @readFile_hit st1 q _ (cacheOK_set_included _ hok) hfs
    rw [hrf] at h
    exact h
  subst hres
  have h2fs : st2.fs = st.fs := by
    have h := readFile_fs st1 q; rw [hrf] at h; exact h
  have h2inc : st2.included = q :: st.included := by
    have h := readFile_included st1 q; rw [hrf] at h; exact h
  have h2cok : CacheOK st2 := by
    have h := @readFile_cacheOK st1 q (cacheOK_set_included _ hok)
    rw [hrf] at h; exact h
  dsimp only
  obtain ⟨out, st3, hpt, hbf⟩ := hrec st2 h2fs h2inc h2cok
  rw [hpt]
  have hpres : Pres st2 st3 := by
    have h := processTemplate_pres f content (dirname q) (d + 1) st2
    rw [hpt] at h
    exact h
  refine ⟨out, _, rfl, hbf, ?_, ?_, ?_⟩
  · exact hpres.1.trans h2fs
  · show st3.included.erase q = st.included
    rw [hpres.2.1, h2inc]
    exact List.erase_cons_head ..
  · intro _
    exact hpres.2.2 h2cok

/-- Declarative safety of a template text against a store: the text is a
well-formed concatenation of brace-free literals and inline directives,
every directive resolves to a stored fragment that is not on the active
inclusion stack, and the inclusion nesting from here is bounded by `n`.
Every acyclic inline-directive graph within the depth limit gives rise to
such a derivation for its root. -/
inductive SafeT (fs : List (Str × Str)) : Nat → List Str → Str → Str → Prop where
  | mk : ∀ (n : Nat) (stack : List Str) (baseDir : Str) (items : List Item),
      itemsOK items →
      (∀ p, Item.dir p ∈ items →
        normalizePath (resolvePath baseDir (trim p)) ∉ stack ∧ 0 < n ∧
        (lookupA fs (normalizePath (normalizePath (resolvePath baseDir (trim p))))).isSome) →
      (∀ p, Item.dir p ∈ items →
        SafeT fs (n - 1) (normalizePath (resolvePath baseDir (trim p)) :: stack)
          (dirname (normalizePath (resolvePath baseDir (trim p))))
          ((lookupA fs (normalizePath (normalizePath (resolvePath baseDir (trim p))))).getD [])) →
      SafeT fs n stack baseDir (render items)

theorem goInlines_items (f : Nat) (bd : Str) (d : Nat) (fs : List (Str × Str))
    (stack : List Str) :
    ∀ (items : List Item), itemsOK items →
      (∀ p, Item.dir p ∈ items →
        normalizePath (resolvePath bd (trim p)) ∉ stack ∧
        ∃ content,
          lookupA fs (normalizePath (normalizePath (resolvePath bd (trim p)))) = some content ∧
          ∀ st2 : BState, st2.fs = fs →
            st2.included = normalizePath (resolvePath bd (trim p)) :: stack →
            CacheOK st2 →
            ∃ out st3, processTemplate f content
              (dirname (normalizePath (resolvePath bd (trim p)))) (d + 1) st2 =
              (.ok out, st3) ∧ braceFree out) →
      ∀ st : BState, st.fs = fs → st.included = stack → CacheOK st →
      ∃ out st', goInlines (processTemplate f) ((items.map segOf).flatten) bd d st =
        (.ok out, st') ∧ braceFree out ∧ st'.fs = fs ∧ st'.included = stack ∧ CacheOK st' := by
  intro items
  induction items with
  | nil =>
    intro _ _ st hfs hinc hcok
    refine ⟨[], st, rfl, ?_, hfs, hinc, hcok⟩
    intro c hc
    simp at hc
  | cons it rest ih =>
    intro hok hconds st hfs hinc hcok
    have hokr : itemsOK rest := fun x hx => hok x (by simp [hx])
    have hcondsr : ∀ p, Item.dir p ∈ rest →
        normalizePath (resolvePath bd (trim p)) ∉ stack ∧
        ∃ content,
          lookupA fs (normalizePath (normalizePath (resolvePath bd (trim p)))) = some content ∧
          ∀ st2 : BState, st2.fs = fs →
            st2.included = normalizePath (resolvePath bd (trim p)) :: stack →
            CacheOK st2 →
            ∃ out st3, processTemplate f content
              (dirname (normalizePath (resolvePath bd (trim p)))) (d + 1) st2 =
              (.ok out, st3) ∧ braceFree out :=
      fun p hp => hconds p (by simp [hp])
    cases it with
    | lit s =>
      have hbfs : braceFree s := hok (Item.lit s) (by simp)
      have hflat : ((Item.lit s :: rest).map segOf).flatten =
          s.map Sum.inl ++ (rest.map segOf).flatten := by
        simp [segOf]
      rw [hflat, goInlines_lit_prefix]
      obtain ⟨out, st', heq, hbf, hfs', hinc', hcok'⟩ := ih hokr hcondsr st hfs hinc hcok
      rw [heq]
      exact ⟨s ++ out, st', rfl, braceFree_append hbfs hbf, hfs', hinc', hcok'⟩
    | dir p =>
      have hflat : ((Item.dir p :: rest).map segOf).flatten =
          Sum.inr p :: (rest.map segOf).flatten := by
        simp [segOf]
      rw [hflat, goInlines]
      obtain ⟨hnotin, content, hcontent, hrec⟩ := hconds p (by simp)
      have hstep := @inlineStep_ok f p bd d st content (by rw [hinc]; exact hnotin) hcok (by rw [hfs]; exact hcontent)
        (by
          intro st2 h1 h2 h3
          exact hrec st2 (by rw [← hfs]; exact h1) (by rw [← hinc]; exact h2) h3)
      obtain ⟨out1, st1', heq1, hbf1, hfs1, hinc1, hcok1⟩ := hstep
      rw [heq1]
      dsimp only
      obtain ⟨out2, st'', heq2, hbf2, hfs2, hinc2, hcok2⟩ :=
        ih hokr hcondsr st1' (hfs1.trans hfs) (hinc1.trans hinc) (hcok1 hcok)
      rw [heq2]
      exact ⟨out1 ++ out2, st'', rfl, braceFree_append hbf1 hbf2, hfs2, hinc2, hcok2⟩

theorem processTemplate_safe (fs : List (Str × Str)) :
    ∀ {n : Nat} {stack : List Str} {bd t : Str}, SafeT fs n stack bd t →
      ∀ (fuel depth : Nat) (st : BState), st.fs = fs → st.included = stack → CacheOK st →
        depth + n ≤ 20 → n < fuel →
        ∃ out st', processTemplate fuel t bd depth st = (.ok out, st') ∧ braceFree out := by
  intro n stack bd t hsafe
  induction hsafe with
  | mk n stack bd items hitems hconds hsub ih =>
    intro fuel depth st hfs hinc hcok hdep hfuel
    cases fuel with
    | zero => omega
    | succ f =>
      rw [processTemplate]
      rw [if_neg (by omega : ¬ depth > 20)]
      rw [splitBlocks_noClose (noClose_render items hitems),
        goBlocks_ident (processTemplate f) (render items) bd depth st]
      dsimp only
      rw [splitInlines_render items hitems]
      have hgi := goInlines_items f bd depth fs stack items hitems ?_ st hfs hinc hcok
      · obtain ⟨out, st', heq, hbf, _, _, _⟩ := hgi
        exact ⟨out, st', heq, hbf⟩
      · intro p hp
        obtain ⟨hnotin, hpos, hsome⟩ := hconds p hp
        obtain ⟨content, hcontent⟩ := Option.isSome_iff_exists.mp hsome
        refine ⟨hnotin, content, hcontent, ?_⟩
        intro st2 h1 h2 h3
        have hsafe2 := ih p hp
        have := hsafe2 f (depth + 1) st2 h1 h2 h3 (by omega) (by omega)
        rw [hcontent] at this
        simpa using this

/-! ## Chains that run into the depth guard -/

instance : DecidablePred braceFree := fun s => by
  unfold braceFree
  exact List.decidableBAll _ s

/-- Checker for a linear chain of inline directives that reaches depth 21:
`deepCheck fs n stack bd t` holds when `t` is a single well-formed inline
directive whose resolved fragment exists and is not on the stack, and so
on recursively for `n` links; at `n = 0` any text qualifies, because the
depth guard fires at entry before the text is examined. -/
def deepCheck (fs : List (Str × Str)) : Nat → List Str → Str → Str → Bool
  | 0, _, _, _ => true
  | n + 1, stack, bd, t =>
    match t with
    | c1 :: c2 :: c3 :: rest =>
      let p := rest.takeWhile (· ≠ rb)
      let q := normalizePath (resolvePath bd (trim p))
      decide (c1 = lb) && decide (c2 = lb) && decide (c3 = '>') &&
      decide (rest.dropWhile (· ≠ rb) = [rb, rb]) &&
      decide (p ≠ []) && decide (braceFree p) &&
      decide (q ∉ stack) &&
      (match lookupA fs (normalizePath q) with
       | some content => deepCheck fs n (q :: stack) (dirname q) content
       | none => false)
    | _ => false

theorem deepCheck_sound (fs : List (Str × Str)) :
    ∀ (n : Nat) (stack : List Str) (bd t : Str),
      deepCheck fs n stack bd t = true →
      ∀ (fuel depth : Nat) (st : BState), st.fs = fs → st.included = stack → CacheOK st →
        depth + n = 21 → n ≤ fuel →
        (processTemplate fuel t bd depth st).1 = .error .maxDepth := by
  intro n
  induction n with
  | zero =>
    intro stack bd t _ fuel depth st _ _ _ hdep _
    cases fuel with
    | zero => rw [processTemplate, if_pos (by omega : depth > 20)]
    | succ f => rw [processTemplate, if_pos (by omega : depth > 20)]
  | succ n ih =>
    intro stack bd t hchk fuel depth st hfs hinc hcok hdep hfuel
    cases fuel with
    | zero => omega
    | succ f =>
      simp only [deepCheck] at hchk
      split at hchk
      next c1 c2 c3 rest =>
        simp only [Bool.and_eq_true, decide_eq_true_eq] at hchk
        obtain ⟨⟨⟨⟨⟨⟨⟨h1, h2⟩, h3⟩, hdw⟩, hne⟩, hbf⟩, hq⟩, hlook⟩ := hchk
        subst h1; subst h2; subst h3
        set p := rest.takeWhile (· ≠ rb) with hp
        set q := normalizePath (resolvePath bd (trim p)) with hqdef
        rcases hcontent : lookupA fs (normalizePath q) with _ | content
        · rw [hcontent] at hlook; simp at hlook
        · rw [hcontent] at hlook
          have hrest : rest = p ++ [rb, rb] := by
            have := List.takeWhile_append_dropWhile (fun x => decide (x ≠ rb)) rest
            rw [hdw] at this
            exact this.symm
          have hshape : lb :: lb :: '>' :: rest = lb :: lb :: '>' :: (p ++ rb :: rb :: []) := by
            rw [hrest]
          have hitems : itemsOK [Item.dir p] := by
            intro it hit
            rcases List.mem_singleton.mp hit with rfl
            exact ⟨hne, hbf⟩
          have hrender : render [Item.dir p] = lb :: lb :: '>' :: (p ++ rb :: rb :: []) := by
            simp [render, renderI]
          rw [processTemplate]
          rw [if_neg (by omega : ¬ depth > 20)]
          rw [hshape, ← hrender]
          rw [splitBlocks_noClose (noClose_render [Item.dir p] hitems),
            goBlocks_ident (processTemplate f) (render [Item.dir p]) bd depth st]
          dsimp only
          rw [splitInlines_render [Item.dir p] hitems]
          have hflat : (([Item.dir p].map segOf).flatten : List (Char ⊕ Str)) = [Sum.inr p] := by
            simp [segOf]
          rw [hflat, goInlines]
          simp only [inlineStep]
          rw [if_neg (fun hmem => hq (hinc ▸ hmem))]
          set st1 : BState := { st with included := q :: st.included } with hst1
          rcases hrf : readFile st1 q with ⟨res, st2⟩
          have hres : res = .ok content := by
            have h := @readFile_hit st1 q _ (cacheOK_set_included _ hcok) (by rw [hfs]; exact hcontent)
            rw [hrf] at h
            exact h
          subst hres
          dsimp only
          have h2fs : st2.fs = fs := by
            have h := readFile_fs st1 q; rw [hrf] at h; rw [h]
            show st.fs = fs
            exact hfs
          have h2inc : st2.included = q :: stack := by
            have h := readFile_included st1 q; rw [hrf] at h; rw [h]
            show q :: st.included = q :: stack
            rw [hinc]
          have h2cok : CacheOK st2 := by
            have h := @readFile_cacheOK st1 q (cacheOK_set_included _ hcok)
            rw [hrf] at h; exact h
          have hsub := ih (q :: stack) (dirname q) content hlook f (depth + 1) st2
            h2fs h2inc h2cok (by omega) (by omega)
          rcases hpt : processTemplate f content (dirname q) (depth + 1) st2 with ⟨res3, st3⟩
          rw [hpt] at hsub
          have : res3 = .error .maxDepth := hsub
          subst this
          rfl
      next => simp at hchk

/-- Checker producing a `SafeT` derivation for a linear chain: the text
is either pure brace-free literal text (the chain ends) or a single
inline directive to a stored fragment off the stack, recursively
chain-safe. -/
def chainCheck (fs : List (Str × Str)) : Nat → List Str → Str → Str → Bool
  | 0, _, _, t => decide (braceFree t)
  | n + 1, stack, bd, t =>
    decide (braceFree t) ||
    (match t with
     | c1 :: c2 :: c3 :: rest =>
       let p := rest.takeWhile (· ≠ rb)
       let q := normalizePath (resolvePath bd (trim p))
       decide (c1 = lb) && decide (c2 = lb) && decide (c3 = '>') &&
       decide (rest.dropWhile (· ≠ rb) = [rb, rb]) &&
       decide (p ≠ []) && decide (braceFree p) &&
       decide (q ∉ stack) &&
       (match lookupA fs (normalizePath q) with
        | some content => chainCheck fs n (q :: stack) (dirname q) content
        | none => false)
     | _ => false)

theorem render_single_lit (s : Str) : render [Item.lit s] = s := by
  simp [render, renderI]

theorem render_single_dir (p : Str) :
    render [Item.dir p] = lb :: lb :: '>' :: (p ++ [rb, rb]) := by
  simp [render, renderI]

theorem safeT_of_braceFree {fs : List (Str × Str)} {n : Nat} {stack : List Str} {bd t : Str}
    (h : braceFree t) : SafeT fs n stack bd t := by
  have hr := render_single_lit t
  rw [← hr]
  apply SafeT.mk
  · intro it hit
    rcases List.mem_singleton.mp hit with rfl
    exact h
  · intro p hp
    simp at hp
  · intro p hp
    simp at hp

theorem chainCheck_sound (fs : List (Str × Str)) :
    ∀ (n : Nat) (stack : List Str) (bd t : Str),
      chainCheck fs n stack bd t = true → SafeT fs n stack bd t := by
  intro n
  induction n with
  | zero =>
    intro stack bd t h
    simp only [chainCheck, decide_eq_true_eq] at h
    exact safeT_of_braceFree h
  | succ n ih =>
    intro stack bd t hchk
    simp only [chainCheck, Bool.or_eq_true, decide_eq_true_eq] at hchk
    rcases hchk with hbf | hdir
    · exact safeT_of_braceFree hbf
    · split at hdir
      next c1 c2 c3 rest =>
        simp only [Bool.and_eq_true, decide_eq_true_eq] at hdir
        obtain ⟨⟨⟨⟨⟨⟨⟨h1, h2⟩, h3⟩, hdw⟩, hne⟩, hbf⟩, hq⟩, hlook⟩ := hdir
        subst h1; subst h2; subst h3
        set p := rest.takeWhile (· ≠ rb) with hp
        set q := normalizePath (resolvePath bd (trim p)) with hqdef
        rcases hcontent : lookupA fs (normalizePath q) with _ | content
        · rw [hcontent] at hlook; simp at hlook
        · rw [hcontent] at hlook
          have hrest : rest = p ++ [rb, rb] := by
            have hd := List.takeWhile_append_dropWhile (fun x => decide (x ≠ rb)) rest
            rw [hdw] at hd
            exact hd.symm
          have hshape : lb :: lb :: '>' :: rest = render [Item.dir p] := by
            rw [render_single_dir, hrest]
          rw [hshape]
          apply SafeT.mk
          · intro it hit
            rcases List.mem_singleton.mp hit with rfl
            exact ⟨hne, hbf⟩
          · intro p' hp'
            rcases List.mem_singleton.mp hp' with h
            injection h with hpp
            subst hpp
            refine ⟨hq, by omega, ?_⟩
            rw [hcontent]
            rfl
          · intro p' hp'
            rcases List.mem_singleton.mp hp' with h
            injection h with hpp
            subst hpp
            have : (lookupA fs (normalizePath q)).getD [] = content := by
              rw [hcontent]; rfl
            rw [this]
            simpa using ih (q :: stack) (dirname q) content hlook
      next => simp at hdir

/-! ## Whitespace decomposition lemmas (for the block-marker matching
characterization) -/

/-- Every character of the string is whitespace. -/
def allWs (s : Str) : Prop := ∀ c ∈ s, isWs c = true

theorem allWs_lws (s : Str) : allWs (lws s) := fun _ hc => mem_takeWhile_pred hc

theorem allWs_tws (s : Str) : allWs (tws s) := by
  intro c hc
  rw [tws] at hc
  exact mem_takeWhile_pred (List.mem_reverse.mp hc)

theorem lws_append_ltrim (s : Str) : lws s ++ ltrim s = s :=
  List.takeWhile_append_dropWhile _ _

theorem rtrim_append_tws (u : Str) : rtrim u ++ tws u = u := by
  rw [rtrim, tws, ← List.reverse_append, lws_append_ltrim, List.reverse_reverse]

theorem allWs_reverse {w : Str} (h : allWs w) : allWs w.reverse :=
  fun c hc => h c (List.mem_reverse.mp hc)

theorem ltrim_ws_append {w : Str} (h : allWs w) (x : Str) : ltrim (w ++ x) = ltrim x := by
  induction w with
  | nil => simp
  | cons c w' ih =>
    rw [List.cons_append, ltrim, List.dropWhile_cons, if_pos (h c (by simp))]
    exact ih (fun d hd => h d (by simp [hd]))

theorem ltrim_allWs {w : Str} (h : allWs w) : ltrim w = [] := by
  have := ltrim_ws_append h []
  simpa using this

theorem rtrim_append_ws {w : Str} (h : allWs w) (x : Str) : rtrim (x ++ w) = rtrim x := by
  rw [rtrim, rtrim, List.reverse_append, ltrim_ws_append (allWs_reverse h)]

theorem ltrim_append_of_ne {a : Str} (h : ltrim a ≠ []) (b : Str) :
    ltrim (a ++ b) = ltrim a ++ b := by
  induction a with
  | nil => simp [ltrim] at h
  | cons c a' ih =>
    by_cases hc : isWs c
    · rw [List.cons_append, ltrim, List.dropWhile_cons, if_pos hc]
      rw [ltrim, List.dropWhile_cons, if_pos hc] at h ⊢
      exact ih h
    · rw [List.cons_append, ltrim, List.dropWhile_cons, if_neg hc]
      rw [ltrim, List.dropWhile_cons, if_neg hc]
      simp

theorem allWs_of_ltrim_nil {t : Str} (h : ltrim t = []) : allWs t := by
  intro c hc
  by_contra hcw
  induction t with
  | nil => simp at hc
  | cons d t' ih =>
    rw [ltrim, List.dropWhile_cons] at h
    by_cases hd : isWs d
    · rw [if_pos hd] at h
      rcases List.mem_cons.mp hc with rfl | hc'
      · exact hcw hd
      · exact ih h hc'
    · rw [if_neg hd] at h
      simp at h

theorem trim_allWs {w : Str} (h : allWs w) : trim w = [] := by
  rw [trim, ltrim_allWs h, rtrim]
  simp [ltrim]

theorem trim_ws_sandwich {w1 w2 t : Str} (h1 : allWs w1) (h2 : allWs w2) :
    trim (w1 ++ t ++ w2) = trim t := by
  rw [List.append_assoc, trim, ltrim_ws_append h1]
  by_cases ht : ltrim t = []
  · rw [ltrim_ws_append (allWs_of_ltrim_nil ht), ltrim_allWs h2]
    rw [trim, ht, rtrim]
  · rw [ltrim_append_of_ne ht, rtrim_append_ws h2]
    rfl


theorem lws_ws_append {w : Str} (h : allWs w) (x : Str) : lws (w ++ x) = w ++ lws x := by
  induction w with
  | nil => simp
  | cons c w' ih =>
    rw [List.cons_append, lws, List.takeWhile_cons, if_pos (h c (by simp))]
    rw [lws] at ih
    rw [ih (fun d hd => h d (by simp [hd]))]
    simp

theorem lws_append_of_nonws {t : Str} (h : ∃ c ∈ t, isWs c = false) (v : Str) :
    lws (t ++ v) = lws t := by
  induction t with
  | nil => simp at h
  | cons c t' ih =>
    by_cases hc : isWs c
    · rw [List.cons_append, lws, List.takeWhile_cons, if_pos hc, lws, List.takeWhile_cons,
        if_pos hc]
      obtain ⟨d, hd, hdw⟩ := h
      rcases List.mem_cons.mp hd with rfl | hd'
      · rw [hc] at hdw; simp at hdw
      · have := ih ⟨d, hd', hdw⟩
        rw [lws, lws] at this
        rw [this]
    · rw [List.cons_append, lws, List.takeWhile_cons, if_neg hc, lws, List.takeWhile_cons,
        if_neg hc]

theorem nonws_of_trim_ne {t : Str} (h : trim t ≠ []) : ∃ c ∈ t, isWs c = false := by
  by_contra hall
  push_neg at hall
  exact h (trim_allWs (fun c hc => by
    have := hall c hc
    revert this
    cases isWs c <;> simp))

theorem decomp_trim (s : Str) : s = lws s ++ (trim s ++ tws (ltrim s)) := by
  conv_lhs => rw [← lws_append_ltrim s]
  rw [trim, rtrim_append_tws (ltrim s)]

theorem marker_decomp_iff {O C : Str} (hO : trim O ≠ []) :
    (∃ t w1 w2 w3, O = w1 ++ t ++ w2 ∧ C = t ++ w3 ∧
      allWs w1 ∧ allWs w2 ∧ allWs w3 ∧ t ≠ []) ↔
    (trim O = trim C ∧ ∃ w, lws O = w ++ lws C) := by
  constructor
  · rintro ⟨t, w1, w2, w3, hOd, hCd, hw1, hw2, hw3, hne⟩
    have htrim : trim O = trim t := by rw [hOd]; exact trim_ws_sandwich hw1 hw2
    have htrimC : trim C = trim t := by
      rw [hCd]
      have hsh : t ++ w3 = [] ++ t ++ w3 := by simp
      rw [hsh]
      exact trim_ws_sandwich (by intro c hc; simp at hc) hw3
    refine ⟨htrim.trans htrimC.symm, ?_⟩
    have hnonws : ∃ c ∈ t, isWs c = false := by
      apply nonws_of_trim_ne
      rw [← htrim]; exact hO
    have hlwsO : lws O = w1 ++ lws t := by
      rw [hOd, List.append_assoc, lws_ws_append hw1, lws_append_of_nonws hnonws]
    have hlwsC : lws C = lws t := by rw [hCd, lws_append_of_nonws hnonws]
    exact ⟨w1, by rw [hlwsO, hlwsC]⟩
  · rintro ⟨htr, w, hlws⟩
    refine ⟨lws C ++ trim C, w, tws (ltrim O), tws (ltrim C), ?_, ?_, ?_, ?_, ?_, ?_⟩
    · conv_lhs => rw [decomp_trim O]
      rw [hlws, htr]
      simp [List.append_assoc]
    · conv_lhs => rw [decomp_trim C]
      simp [List.append_assoc]
    · intro c hc
      exact allWs_lws O c (by rw [hlws]; exact List.mem_append.mpr (Or.inl hc))
    · exact allWs_tws _
    · exact allWs_tws _
    · intro hnil
      rcases List.append_eq_nil.mp hnil with ⟨_, h2⟩
      rw [← htr] at h2
      exact hO h2

theorem wsChainRev_mem : ∀ (r u : Str), u ∈ wsChainRev r ↔ ∃ w, r = w ++ u ∧ allWs w ∧ u ≠ [] := by
  intro r
  induction r with
  | nil =>
    intro u
    constructor
    · intro h; simp [wsChainRev] at h
    · rintro ⟨w, hr, _, hne⟩
      exact absurd (List.append_eq_nil.mp hr.symm).2 hne
  | cons c r' ih =>
    intro u
    rw [wsChainRev]
    constructor
    · intro h
      rcases List.mem_cons.mp h with rfl | h2
      · exact ⟨[], rfl, by intro x hx; simp at hx, by simp⟩
      · by_cases hc : isWs c
        · rw [if_pos hc] at h2
          obtain ⟨w', hr', hw', hne⟩ := (ih u).mp h2
          refine ⟨c :: w', by rw [List.cons_append, hr'], ?_, hne⟩
          intro x hx
          rcases List.mem_cons.mp hx with rfl | hx'
          · exact hc
          · exact hw' x hx'
        · rw [if_neg hc] at h2
          simp at h2
    · rintro ⟨w, hr, hw, hne⟩
      cases w with
      | nil =>
        simp only [List.nil_append] at hr
        exact List.mem_cons.mpr (Or.inl hr.symm)
      | cons d w' =>
        simp only [List.cons_append, List.cons.injEq] at hr
        obtain ⟨hcd, hr'⟩ := hr
        have hcws : isWs c = true := hcd ▸ hw d (by simp)
        apply List.mem_cons.mpr
        right
        rw [if_pos hcws]
        exact (ih u).mpr ⟨w', hr', fun x hx => hw x (by simp [hx]), hne⟩

theorem wsChain_mem (s u : Str) : u ∈ wsChain s ↔ ∃ v, s = u ++ v ∧ allWs v ∧ u ≠ [] := by
  rw [wsChain]
  constructor
  · intro h
    obtain ⟨x, hx, hxu⟩ := List.mem_map.mp h
    obtain ⟨w, hr, hw, hne⟩ := (wsChainRev_mem s.reverse x).mp hx
    refine ⟨w.reverse, ?_, allWs_reverse hw, ?_⟩
    · have hs : s = (w ++ x).reverse := by rw [← hr, List.reverse_reverse]
      rw [hs, List.reverse_append, hxu]
    · rw [← hxu]
      simpa using hne
  · rintro ⟨v, hs, hv, hne⟩
    apply List.mem_map.mpr
    refine ⟨u.reverse, ?_, by simp⟩
    apply (wsChainRev_mem s.reverse u.reverse).mpr
    exact ⟨v.reverse, by rw [hs, List.reverse_append], allWs_reverse hv, by simpa using hne⟩

theorem mem_candidates_iff {I t : Str} :
    t ∈ candidates I ↔ ∃ w1 w2, I = w1 ++ t ++ w2 ∧ allWs w1 ∧ allWs w2 ∧ t ≠ [] := by
  rw [candidates]
  constructor
  · intro h
    obtain ⟨a, ha, hmem⟩ := List.mem_flatMap.mp h
    have ha' : a ≤ (lws I).length := by
      have h1 := List.mem_range.mp (List.mem_reverse.mp ha)
      omega
    obtain ⟨v, hdrop, hv, hne⟩ := (wsChain_mem (I.drop a) t).mp hmem
    refine ⟨I.take a, v, ?_, ?_, hv, hne⟩
    · rw [List.append_assoc, ← hdrop, List.take_append_drop]
    · intro c hc
      obtain ⟨rest, hrest⟩ := List.takeWhile_prefix (p := isWs) (l := I)
      have htake : I.take a = (lws I).take a := by
        conv_lhs => rw [← hrest]
        exact List.take_append_of_le_length ha'
      rw [htake] at hc
      exact allWs_lws I c (List.take_subset a (lws I) hc)
  · rintro ⟨w1, w2, hI, hw1, hw2, hne⟩
    apply List.mem_flatMap.mpr
    have hlws : lws I = w1 ++ lws (t ++ w2) := by
      rw [hI, List.append_assoc, lws_ws_append hw1]
    refine ⟨w1.length, ?_, ?_⟩
    · apply List.mem_reverse.mpr
      apply List.mem_range.mpr
      have hlen : w1.length ≤ (lws I).length := by rw [hlws]; simp
      omega
    · apply (wsChain_mem _ t).mpr
      refine ⟨w2, ?_, hw2, hne⟩
      rw [hI, List.append_assoc, List.drop_left]

theorem closeAt_marker_iff {t C : Str} (ht : ∀ c ∈ t, c ≠ rb) (hC : braceFree C) :
    (closeAt t (lb :: lb :: '/' :: (C ++ [rb, rb]))).isSome ↔
      ∃ w3, C = t ++ w3 ∧ allWs w3 := by
  rw [closeAt, if_pos ⟨rfl, rfl, rfl⟩]
  constructor
  · intro h
    rcases hdp : dropPre t (C ++ [rb, rb]) with _ | r
    · rw [hdp] at h; simp at h
    · rw [hdp] at h
      have hsplit := dropPre_sound _ _ _ hdp
      have htC : ∃ C', C = t ++ C' ∧ r = C' ++ [rb, rb] := by
        rcases List.append_eq_append_iff.mp hsplit with ⟨a', ha1, ha2⟩ | ⟨c', hc1, hc2⟩
        · cases a' with
          | nil =>
            refine ⟨[], by simpa using ha1.symm, ?_⟩
            simpa using ha2.symm
          | cons d a'' =>
            exfalso
            apply ht d (by rw [ha1]; simp)
            have h2 := ha2
            simp only [List.cons_append] at h2
            injection h2 with h1 _
            exact h1.symm
        · exact ⟨c', hc1, hc2⟩
      obtain ⟨C', hC', hr⟩ := htC
      rw [hr] at h
      have h2 : (match (C' ++ [rb, rb]).dropWhile isWs with
          | r1 :: r2 :: tail => if r1 = rb ∧ r2 = rb then some tail else none
          | _ => none).isSome = true := h
      by_cases hws : allWs C'
      · exact ⟨C', hC', hws⟩
      · exfalso
        have hlt : ltrim C' ≠ [] := fun hnil => hws (allWs_of_ltrim_nil hnil)
        have hdw : (C' ++ [rb, rb]).dropWhile isWs = ltrim C' ++ [rb, rb] :=
          ltrim_append_of_ne hlt [rb, rb]
        rw [hdw] at h2
        rcases hlt2 : ltrim C' with _ | ⟨c0, cs⟩
        · exact hlt hlt2
        · have hc0 : c0 ∈ C' := by
            have hsuf : ltrim C' <:+ C' := List.dropWhile_suffix _
            exact hsuf.subset (by rw [hlt2]; simp)
          have hc0rb : c0 ≠ rb := by
            have hmem : c0 ∈ C := by rw [hC']; simp [hc0]
            exact (hC c0 hmem).2
          rw [hlt2] at h2
          cases cs with
          | nil =>
            simp only [List.cons_append, List.nil_append] at h2
            rw [if_neg (fun hcon => hc0rb hcon.1)] at h2
            simp at h2
          | cons c1 cs' =>
            simp only [List.cons_append] at h2
            rw [if_neg (fun hcon => hc0rb hcon.1)] at h2
            simp at h2
  · rintro ⟨w3, hC3, hw3⟩
    rw [hC3, List.append_assoc, dropPre_append]
    have hdw : (w3 ++ [rb, rb]).dropWhile isWs = [rb, rb] := by
      have h1 : (w3 ++ [rb, rb]).dropWhile isWs = ([rb, rb] : Str).dropWhile isWs :=
        ltrim_ws_append hw3 [rb, rb]
      rw [h1]
      rfl
    show (match (w3 ++ [rb, rb]).dropWhile isWs with
        | r1 :: r2 :: tail => if r1 = rb ∧ r2 = rb then some tail else none
        | _ => none).isSome = true
    rw [hdw]
    simp

theorem findClose_lit_prefix {t z : Str} :
    ∀ {body : Str}, lbFree body →
      findClose t (body ++ z) =
        match findClose t z with
        | some (b2, tl) => some (body ++ b2, tl)
        | none => none := by
  intro body
  induction body with
  | nil =>
    intro _
    rcases h : findClose t z with _ | ⟨b2, tl⟩ <;> simp [h]
  | cons c b' ih =>
    intro hb
    rw [List.cons_append, findClose, closeAt_nonlb (hb c (by simp)) t]
    dsimp only
    rw [ih (fun x hx => hb x (by simp [hx]))]
    rcases h : findClose t z with _ | ⟨b2, tl⟩ <;> simp

theorem noClose_closer_tail {C : Str} (hC : braceFree C) :
    NoClose (lb :: '/' :: (C ++ [rb, rb])) := by
  have h1 : lbFree ('/' :: (C ++ [rb, rb])) := by
    intro c hc
    rcases List.mem_cons.mp hc with rfl | h2
    · decide
    · rcases List.mem_append.mp h2 with h3 | h3
      · exact (hC c h3).1
      · rcases List.mem_cons.mp h3 with rfl | h4
        · exact rb_ne_lb
        · rcases List.mem_cons.mp h4 with rfl | h5
          · exact rb_ne_lb
          · simp at h5
  intro pre suf heq
  cases pre with
  | nil =>
    simp only [List.nil_append, List.cons.injEq] at heq
    exact absurd heq.2.1.symm (by decide)
  | cons d pre' =>
    simp only [List.cons_append, List.cons.injEq] at heq
    have h2 : NoClose ('/' :: (C ++ [rb, rb])) := by
      have hsh : '/' :: (C ++ [rb, rb]) = ('/' :: (C ++ [rb, rb])) ++ [] := by simp
      rw [hsh]
      exact noClose_append h1 noClose_nil
    exact h2 pre' suf heq.2

theorem findClose_closer {t C : Str} (hC : braceFree C) :
    findClose t (lb :: lb :: '/' :: (C ++ [rb, rb])) =
      match closeAt t (lb :: lb :: '/' :: (C ++ [rb, rb])) with
      | some tl => some ([], tl)
      | none => none := by
  rw [findClose]
  rcases h : closeAt t (lb :: lb :: '/' :: (C ++ [rb, rb])) with _ | tl
  · dsimp only
    rw [findClose_noClose (noClose_closer_tail hC) t]
  · rfl

theorem firstSome_isSome_iff {α β : Type} (f : α → Option β) :
    ∀ l : List α, (firstSome f l).isSome ↔ ∃ x ∈ l, (f x).isSome := by
  intro l
  induction l with
  | nil => simp [firstSome]
  | cons x xs ih =>
    rw [firstSome_cons]
    rcases h : f x with _ | y
    · simp only [h]
      rw [ih]
      constructor
      · rintro ⟨z, hz, hsome⟩
        exact ⟨z, by simp [hz], hsome⟩
      · rintro ⟨z, hz, hsome⟩
        rcases List.mem_cons.mp hz with rfl | hz'
        · rw [h] at hsome; simp at hsome
        · exact ⟨z, hz', hsome⟩
    · simp only [h]
      constructor
      · intro _
        exact ⟨x, by simp, by rw [h]; rfl⟩
      · intro _
        rfl

/-- The exact text of a block directive written with opening interior
`O`, body `body`, and closing interior `C`. -/
def mkBlock (O body C : Str) : Str :=
  lb :: lb :: '>' :: (O ++ rb :: rb :: (body ++ lb :: lb :: '/' :: (C ++ [rb, rb])))

theorem blockAt_mkBlock_iff {O body C : Str} (hO : braceFree O) (hB : braceFree body)
    (hC : braceFree C) (hne : O ≠ []) :
    (blockAt (mkBlock O body C)).isSome ↔
      ∃ t w1 w2 w3, O = w1 ++ t ++ w2 ∧ C = t ++ w3 ∧
        allWs w1 ∧ allWs w2 ∧ allWs w3 ∧ t ≠ [] := by
  have hopen : openAt (mkBlock O body C) =
      some (O, body ++ lb :: lb :: '/' :: (C ++ [rb, rb])) := openAt_dir hne hO _
  have hblock : blockAt (mkBlock O body C) = firstSome (fun t =>
      match findClose t (body ++ lb :: lb :: '/' :: (C ++ [rb, rb])) with
      | some (b, tl) => some (t, b, tl)
      | none => none) (candidates O) := by
    rw [blockAt, hopen]
  rw [hblock, firstSome_isSome_iff]
  constructor
  · rintro ⟨t, htmem, hsome⟩
    obtain ⟨w1, w2, hOd, hw1, hw2, htne⟩ := mem_candidates_iff.mp htmem
    have htbf : ∀ c ∈ t, c ≠ rb := by
      intro c hc
      have : c ∈ O := by rw [hOd]; simp [hc]
      exact (hO c this).2
    rw [ findClose_lit_prefix (fun c hc => (hB c hc).1), findClose_closer hC] at hsome
    rcases hcl : closeAt t (lb :: lb :: '/' :: (C ++ [rb, rb])) with _ | tl
    · rw [hcl] at hsome; simp at hsome
    · obtain ⟨w3, hC3, hw3⟩ := (closeAt_marker_iff htbf hC).mp (by rw [hcl]; rfl)
      exact ⟨t, w1, w2, w3, hOd, hC3, hw1, hw2, hw3, htne⟩
  · rintro ⟨t, w1, w2, w3, hOd, hC3, hw1, hw2, hw3, htne⟩
    have htbf : ∀ c ∈ t, c ≠ rb := by
      intro c hc
      have : c ∈ O := by rw [hOd]; simp [hc]
      exact (hO c this).2
    refine ⟨t, mem_candidates_iff.mpr ⟨w1, w2, hOd, hw1, hw2, htne⟩, ?_⟩
    rw [ findClose_lit_prefix (fun c hc => (hB c hc).1), findClose_closer hC]
    obtain ⟨r, hr⟩ := Option.isSome_iff_exists.mp
      ((closeAt_marker_iff htbf hC).mpr ⟨w3, hC3, hw3⟩)
    rw [hr]
    rfl

/-! ## Body substitution: dollar-free refinement and dropped bodies -/

/-- Fuel-indexed literal global replacement of the placeholder (no
dollar-pattern handling). -/
def replaceAllLitF (bodyT : Str) : Nat → Str → Str
  | _, [] => []
  | 0, s => s
  | n + 1, c :: s' =>
    match dropPre contentPH (c :: s') with
    | some rest => bodyT ++ replaceAllLitF bodyT n rest
    | none => c :: replaceAllLitF bodyT n s'

/-- Modelled from the spec's words for block substitution: every
occurrence of the `{{content}}` placeholder replaced with the block's
trimmed inner body, as plain text.  Specification side of the refinement
comparison with `replaceContent`. -/
def replaceContentSpec (s body : Str) : Str := replaceAllLitF (trim body) s.length s

theorem dollarSubst_no_dollar (m b a : Str) :
    ∀ r : Str, '$' ∉ r → dollarSubst m b a r = r := by
  intro r
  induction r with
  | nil => intro _; rfl
  | cons c r' ih =>
    intro h
    have hc : c ≠ '$' := fun hcd => h (by simp [hcd])
    cases r' with
    | nil => rfl
    | cons d r'' =>
      rw [dollarSubst, if_neg hc, ih (fun hmem => h (by simp [hmem]))]

theorem replaceContentF_no_dollar {bodyT : Str} (h : '$' ∉ bodyT) :
    ∀ (n : Nat) (pre s : Str), replaceContentF bodyT n pre s = replaceAllLitF bodyT n s := by
  intro n
  induction n with
  | zero =>
    intro pre s
    cases s <;> rfl
  | succ n ih =>
    intro pre s
    cases s with
    | nil => rfl
    | cons c s' =>
      rw [replaceContentF, replaceAllLitF]
      rcases hd : dropPre contentPH (c :: s') with _ | rest
      · simp only [ih]
      · simp only [dollarSubst_no_dollar _ _ _ bodyT h, ih]

theorem mem_ltrim_subset {s : Str} {c : Char} (h : c ∈ ltrim s) : c ∈ s :=
  (List.dropWhile_suffix isWs).subset h

theorem mem_rtrim_subset {s : Str} {c : Char} (h : c ∈ rtrim s) : c ∈ s := by
  rw [rtrim] at h
  have h2 := List.mem_reverse.mp h
  exact List.mem_reverse.mp (mem_ltrim_subset h2)

theorem mem_trim_subset {s : Str} {c : Char} (h : c ∈ trim s) : c ∈ s := by
  rw [trim] at h
  exact mem_ltrim_subset (mem_rtrim_subset h)

/-- Dollar-free refinement: when the block body contains no `$`, the
engine's substitution coincides with the spec's plain-text
substitution. -/
theorem replaceContent_no_dollar {body : Str} (h : '$' ∉ body) (s : Str) :
    replaceContent s body = replaceContentSpec s body := by
  rw [replaceContent, replaceContentSpec]
  exact replaceContentF_no_dollar (fun hmem => h (mem_trim_subset hmem)) s.length [] s

/-- The placeholder occurs in the text. -/
def HasPH (s : Str) : Prop := ∃ pre suf, s = pre ++ contentPH ++ suf

theorem replaceContentF_no_occ (bodyT : Str) :
    ∀ (n : Nat) (pre s : Str), s.length ≤ n → ¬ HasPH s →
      replaceContentF bodyT n pre s = s := by
  intro n
  induction n with
  | zero =>
    intro pre s hlen _
    have : s = [] := List.length_eq_zero.mp (Nat.le_zero.mp hlen)
    subst this
    rfl
  | succ n ih =>
    intro pre s hlen hocc
    cases s with
    | nil => rfl
    | cons c s' =>
      rw [replaceContentF]
      rcases hd : dropPre contentPH (c :: s') with _ | rest
      · have hocc' : ¬ HasPH s' := by
          rintro ⟨p2, s2, hs2⟩
          exact hocc ⟨c :: p2, s2, by rw [hs2]; rfl⟩
        simp only [List.length_cons] at hlen
        rw [ih (c :: pre) s' (by omega) hocc']
      · exfalso
        exact hocc ⟨[], rest, by simpa using dropPre_sound _ _ _ hd⟩

/-- A block body is silently dropped when the referenced fragment has no
`{{content}}` placeholder: the substitution leaves the fragment text
unchanged, whatever the body. -/
theorem replaceContent_no_occ {s : Str} (h : ¬ HasPH s) (body : Str) :
    replaceContent s body = s :=
  replaceContentF_no_occ (trim body) s.length [] s le_rfl h

/-- One root resolution exactly as `buildHTML` invokes it (line 213):
default `baseDir = SRC_DIR`, `depth = 0`, fresh per-build cache and
inclusion set over the given store. -/
def resolveRoot (fs : List (Str × Str)) (template : Str) : Except BuildError Str × BState :=
  processTemplate 21 template SRC_DIR 0 ⟨fs, [], [], 0⟩

/-! ## `validateHTML` and `buildHTML` -/

/-- Substring occurrence test (JS `String.prototype.includes`). -/
def hasSub (pat s : Str) : Bool :=
  match s with
  | [] => (dropPre pat ([] : Str)).isSome
  | c :: s' => (dropPre pat (c :: s')).isSome || hasSub pat s'

/-- `validateHTML` (lines 156-177): structural warnings, never fatal. -/
def validateHTML (html : Str) : List Str :=
  (if hasSub ("<!DOCTYPE html>".data) html then [] else [("Missing DOCTYPE declaration".data : Str)]) ++
  (if hasSub ("<html".data) html then [] else [("Missing html tag".data : Str)]) ++
  (if hasSub ("</html>".data) html then [] else [("Missing closing html tag".data : Str)]) ++
  (if hasLeftoverDirective html then [("Unprocessed includes found".data : Str)] else [])

/-- Overwrite-or-insert for the store (JS `fs.writeFileSync`). -/
def setA (m : List (Str × Str)) (k v : Str) : List (Str × Str) := (k, v) :: m

/-- The `buildHTML` return/exit behavior: success, tolerated failure
(`return false`), or process termination (`process.exit(1)`). -/
inductive Outcome where
  | ok
  | failed
  | exited (code : Nat)
deriving DecidableEq

/-- `buildHTML` (lines 184-241): clear the per-build cache and inclusion
set, check the layout file exists, read it, resolve from depth 0, log
`validateHTML` warnings (which never block), and write `OUTPUT_FILE`
only on full success; any caught error exits with code 1 when
`exitOnError` is set and returns failure otherwise.
(`ensureDirectoryStructure` only creates directories, which a flat store
has no notion of.) -/
def buildHTML (exitOnError : Bool) (fs0 : List (Str × Str)) : Outcome × List (Str × Str) :=
  let st0 : BState := ⟨fs0, [], [], 0⟩
  if (lookupA fs0 layoutPath).isSome then
    match readFile st0 layoutPath with
    | (.error _, _) => (if exitOnError then .exited 1 else .failed, fs0)
    | (.ok template, st1) =>
      match processTemplate 21 template SRC_DIR 0 st1 with
      | (.error _, _) => (if exitOnError then .exited 1 else .failed, fs0)
      | (.ok processed, st2) => (.ok, setA st2.fs OUTPUT_FILE processed)
  else (if exitOnError then .exited 1 else .failed, fs0)


/-! ## Concrete fixtures for the claim instances -/

/-- Inline directive text for a path text `p`. -/
def dInline (p : Str) : Str := lb :: lb :: '>' :: (p ++ [rb, rb])

/-- The lookup key a directive with trimmed path text `p` resolves to
when the including fragment lives in `bd`. -/
def keyOf (bd p : Str) : Str := normalizePath (resolvePath bd (trim p))

/-- Chain fragment names: `f`, `fx`, `fxx`, … with an `.html` suffix. -/
def cname (i : Nat) : Str := 'f' :: (List.replicate i 'x' ++ (".html".data))

/-- Store for an `n`-link inclusion chain rooted at `dInline (cname 1)`:
fragment `i` includes fragment `i + 1` and fragment `n` is the literal
`end`. -/
def chainFs (n : Nat) : List (Str × Str) :=
  (List.range n).map (fun j =>
    (keyOf SRC_DIR (cname (j + 1)),
     if j + 2 ≤ n then dInline (cname (j + 2)) else ("end".data)))

/-- Store whose directive graph is the 21-cycle c1 → c2 → … → c21 → c1. -/
def cycFs : List (Str × Str) :=
  (List.range 21).map (fun j =>
    (keyOf SRC_DIR (cname (j + 1)),
     if j + 2 ≤ 21 then dInline (cname (j + 2)) else dInline (cname 1)))

/-- Store with the two-fragment cycle a.html ↔ b.html. -/
def fsAB : List (Str × Str) :=
  [(keyOf SRC_DIR ("a.html".data), dInline ("b.html".data)),
   (keyOf SRC_DIR ("b.html".data), dInline ("a.html".data))]

/-- Store whose layout references a missing fragment. -/
def fsMiss : List (Str × Str) := [(layoutPath, dInline ("sections/missing.html".data))]

/-- Store with one fragment containing the body placeholder. -/
def fsBlk : List (Str × Str) :=
  [(keyOf SRC_DIR ("p.html".data), "before ".data ++ contentPH ++ " after".data)]

/-- Store with one fragment whose text is an unterminated opening
marker. -/
def fsSplice : List (Str × Str) := [(keyOf SRC_DIR ("a.html".data), [lb, lb, '>', 'x'])]

/-- Store with one placeholder-free fragment. -/
def fsNoPH : List (Str × Str) := [(keyOf SRC_DIR ("q.html".data), "X Y".data)]

/-- Store with one literal fragment, for the completeness witness. -/
def fsW : List (Str × Str) := [(keyOf SRC_DIR ("a.html".data), "yo".data)]

/-- A brace-free output has no leftover directive syntax. -/
theorem hasLeftover_of_lbFree {s : Str} (h : lbFree s) : hasLeftoverDirective s = false := by
  induction s with
  | nil => rfl
  | cons c s' ih =>
    rw [hasLeftoverDirective, openAt_nonlb (h c (by simp)), ih (fun x hx => h x (by simp [hx]))]
    rfl

/-- `hasSub` decides substring occurrence. -/
theorem hasSub_iff (pat s : Str) :
    hasSub pat s = true ↔ ∃ pre suf, s = pre ++ pat ++ suf := by
  induction s with
  | nil =>
    rw [hasSub]
    constructor
    · intro h
      obtain ⟨r, hr⟩ := Option.isSome_iff_exists.mp h
      have := dropPre_sound _ _ _ hr
      exact ⟨[], r, by simpa using this⟩
    · rintro ⟨pre, suf, hs⟩
      have hp : pat = [] := by
        rcases List.append_eq_nil.mp (List.append_eq_nil.mp hs.symm).1 with ⟨_, h2⟩
        exact h2
      rw [hp]
      rfl
  | cons c s' ih =>
    rw [hasSub]
    constructor
    · intro h
      rcases Bool.or_eq_true .. |>.mp h with h1 | h1
      · obtain ⟨r, hr⟩ := Option.isSome_iff_exists.mp h1
        exact ⟨[], r, by simpa using dropPre_sound _ _ _ hr⟩
      · obtain ⟨pre, suf, hs⟩ := ih.mp h1
        exact ⟨c :: pre, suf, by rw [hs]; rfl⟩
    · rintro ⟨pre, suf, hs⟩
      apply Bool.or_eq_true .. |>.mpr
      cases pre with
      | nil =>
        left
        simp only [List.nil_append] at hs
        rw [hs, dropPre_append]
        rfl
      | cons d pre' =>
        right
        apply ih.mpr
        refine ⟨pre', suf, ?_⟩
        simp only [List.cons_append, List.cons.injEq] at hs
        exact hs.2

/-! ## The claims -/

/-- Claim C3: a path successfully pushed onto the active inclusion stack
is removed exactly once when that expansion finishes — on the success
path and on every error-propagation path — so after any resolution step
the inclusion stack is exactly what it was before; a failed expansion
therefore never leaves its path behind to falsely reject a later sibling
directive for the same path in the same build. -/
theorem claim3_stack_restored :
    (∀ (fuel : Nat) (t bd : Str) (d : Nat) (st : BState),
      ((processTemplate fuel t bd d st).2).included = st.included) ∧
    (∀ (f : Nat) (fp body bd : Str) (d : Nat) (st : BState),
      ((blockStep (processTemplate f) fp body bd d st).2).included = st.included) ∧
    (∀ (f : Nat) (fp bd : Str) (d : Nat) (st : BState),
      ((inlineStep (processTemplate f) fp bd d st).2).included = st.included) := by
  refine ⟨?_, ?_, ?_⟩
  · intro fuel t bd d st
    exact (processTemplate_pres fuel t bd d st).2.1
  · intro f fp body bd d st
    exact (blockStep_pres (fun t bd d st => processTemplate_pres f t bd d st)
      fp body bd d st).2.1
  · intro f fp bd d st
    exact (inlineStep_pres (fun t bd d st => processTemplate_pres f t bd d st)
      fp bd d st).2.1

/-- Claim C7: a trimmed directive path starting with the `partials/` or
`sections/` namespace resolves from the fragment root `SRC_DIR`; an
absolute path is used as-is; any other path resolves against the
including fragment's directory — and the resolver looks fragments up
under the normalization of exactly this resolution, as the not-found
error of the inline step shows. -/
theorem claim7_path_resolution :
    (∀ bd p, (startsW ("partials/".data) p || startsW ("sections/".data) p) = true →
      resolvePath bd p = joinPath SRC_DIR p) ∧
    (∀ bd p, (startsW ("partials/".data) p || startsW ("sections/".data) p) = false →
      isAbsolute p = true → resolvePath bd p = p) ∧
    (∀ bd p, (startsW ("partials/".data) p || startsW ("sections/".data) p) = false →
      isAbsolute p = false → resolvePath bd p = joinPath bd p) ∧
    (∀ (recur : Recur) (fp bd : Str) (d : Nat) (st : BState),
      normalizePath (resolvePath bd (trim fp)) ∉ st.included →
      lookupA st.cache (normalizePath (normalizePath (resolvePath bd (trim fp)))) = none →
      lookupA st.fs (normalizePath (normalizePath (resolvePath bd (trim fp)))) = none →
      (inlineStep recur fp bd d st).1 =
        .error (.fileNotFound (normalizePath (normalizePath (resolvePath bd (trim fp)))))) := by
  refine ⟨?_, ?_, ?_, ?_⟩
  · intro bd p h
    simp [resolvePath, h]
  · intro bd p h1 h2
    simp [resolvePath, h1, h2]
  · intro bd p h1 h2
    simp [resolvePath, h1, h2]
  · intro recur fp bd d st hmem hcache hfs
    simp only [inlineStep]
    rw [if_neg hmem]
    rw [readFile]
    rw [hcache, hfs]

/-- A second `readFile` of the same path changes nothing: it returns the
first call's result on the first call's state. -/
theorem readFile_idem (st : BState) (p : Str) :
    readFile (readFile st p).2 p = ((readFile st p).1, (readFile st p).2) := by
  rcases h1 : readFile st p with ⟨res1, st1⟩
  dsimp only
  rw [readFile] at h1
  rcases hc : lookupA st.cache (normalizePath p) with _ | v
  · rw [hc] at h1
    rcases hf : lookupA st.fs (normalizePath p) with _ | c
    · rw [hf] at h1
      simp only [Prod.mk.injEq] at h1
      obtain ⟨hr, hs⟩ := h1
      rw [readFile, ← hs, hc, hf, ← hr]
    · rw [hf] at h1
      simp only [Prod.mk.injEq] at h1
      obtain ⟨hr, hs⟩ := h1
      rw [readFile]
      have hhit : lookupA st1.cache (normalizePath p) = some c := by
        rw [← hs]
        show lookupA ((normalizePath p, c) :: st.cache) (normalizePath p) = some c
        rw [lookupA, if_pos rfl]
      rw [hhit, ← hr]
  · rw [hc] at h1
    simp only [Prod.mk.injEq] at h1
    obtain ⟨hr, hs⟩ := h1
    rw [readFile, ← hs, hc, ← hr]

/-- Claim C8: within one build, the first successful read of a path
performs the single storage read and caches the content; a second
`readFile` of the same path returns the same content without changing
state, so two reads cost at most one storage access; and a failed read
leaves the state — in particular the cache — untouched. -/
theorem claim8_read_cache :
    (∀ (st : BState) (p : Str),
      (readFile (readFile st p).2 p).1 = (readFile st p).1 ∧
      (readFile (readFile st p).2 p).2 = (readFile st p).2 ∧
      ((readFile st p).2).reads ≤ st.reads + 1) ∧
    (∀ (st : BState) (p c : Str),
      lookupA st.cache (normalizePath p) = none →
      lookupA st.fs (normalizePath p) = some c →
      readFile st p = (.ok c,
        { st with cache := (normalizePath p, c) :: st.cache, reads := st.reads + 1 })) ∧
    (∀ (st : BState) (p : Str) (e : BuildError),
      (readFile st p).1 = .error e → (readFile st p).2 = st) := by
  refine ⟨?_, ?_, ?_⟩
  · intro st p
    have h := readFile_idem st p
    exact ⟨by rw [h], by rw [h], readFile_reads st p⟩
  · intro st p c h1 h2
    rw [readFile, h1, h2]
  · intro st p e h
    rw [readFile] at h ⊢
    rcases hc : lookupA st.cache (normalizePath p) with _ | v
    · rw [hc] at h
      rcases hf : lookupA st.fs (normalizePath p) with _ | c
      · rfl
      · rw [hf] at h
        have h2 : (Except.ok c : Except BuildError Str) = .error e := h
        simp at h2
    · rw [hc] at h

theorem cacheOK_init (fs : List (Str × Str)) : CacheOK ⟨fs, [], [], 0⟩ := by
  intro k v h
  simp [lookupA] at h

/-- Discriminator for the CyclicInclusion error kind. -/
def isCircularErr : Except BuildError Str → Bool
  | .error (.circular _) => true
  | _ => false

/-- Claim C1 counterexample: the directive graph of `cycFs` contains the
path cycle c1 → c2 → … → c21 → c1 (fragment c21 includes c1 again), yet
resolving the root template `{{>f.html}}` fails with MaxDepthExceeded,
not CyclicInclusion: the depth guard fires on entering depth 21 before
the cycle is ever re-entered. -/
theorem claim1_counterexample :
    (resolveRoot cycFs (dInline (cname 1))).1 = .error .maxDepth ∧
    isCircularErr (resolveRoot cycFs (dInline (cname 1))).1 = false := by
  have hdeep : (processTemplate 21 (dInline (cname 1)) SRC_DIR 0
      (⟨cycFs, [], [], 0⟩ : BState)).1 = .error .maxDepth :=
    deepCheck_sound cycFs 21 [] SRC_DIR (dInline (cname 1)) (by decide) 21 0
      ⟨cycFs, [], [], 0⟩ rfl rfl (cacheOK_init cycFs) rfl (by omega)
  refine ⟨hdeep, ?_⟩
  rw [show (resolveRoot cycFs (dInline (cname 1))).1 = .error .maxDepth from hdeep]
  rfl

/-- Claim C1 (amended): whenever a directive resolves to a path already
on the active inclusion stack, the expansion step — block or inline —
fails with CyclicInclusion, checked before the push, so the state is
returned untouched; in particular the two-fragment cycle a.html ↔ b.html
fails with CyclicInclusion naming a.html.  (Resolution is a total
function of the model, so it never hangs or overflows; a cycle that can
only be re-entered beyond the depth limit fails with MaxDepthExceeded
first, per the counterexample.) -/
theorem claim1_cyclic_inclusion :
    (∀ (recur : Recur) (fp bd : Str) (d : Nat) (st : BState),
      normalizePath (resolvePath bd (trim fp)) ∈ st.included →
      inlineStep recur fp bd d st =
        (.error (.circular (normalizePath (resolvePath bd (trim fp)))), st)) ∧
    (∀ (recur : Recur) (fp body bd : Str) (d : Nat) (st : BState),
      normalizePath (resolvePath bd (trim fp)) ∈ st.included →
      blockStep recur fp body bd d st =
        (.error (.circular (normalizePath (resolvePath bd (trim fp)))), st)) ∧
    (resolveRoot fsAB (dInline ("a.html".data))).1 =
      .error (.circular (keyOf SRC_DIR ("a.html".data))) := by
  refine ⟨?_, ?_, by decide⟩
  · intro recur fp bd d st hmem
    simp only [inlineStep]
    rw [if_pos hmem]
  · intro recur fp body bd d st hmem
    simp only [blockStep]
    rw [if_pos hmem]

/-- Witness for claim C1: the inline step at a concrete path already on
the stack returns CyclicInclusion with the state unchanged. -/
theorem claim1_witness :
    inlineStep (processTemplate 0) ("x.html".data) SRC_DIR 0
      ⟨[], [], [keyOf SRC_DIR ("x.html".data)], 0⟩ =
      (.error (.circular (keyOf SRC_DIR ("x.html".data))),
        (⟨[], [], [keyOf SRC_DIR ("x.html".data)], 0⟩ : BState)) :=
  claim1_cyclic_inclusion.1 (processTemplate 0) ("x.html".data) SRC_DIR 0
    ⟨[], [], [keyOf SRC_DIR ("x.html".data)], 0⟩ (by simp [keyOf])

/-- Claim C2: a chain of exactly 21 nested non-cyclic inclusions fails
with MaxDepthExceeded, a chain of exactly 20 succeeds, and the limit is
enforced at entry of the deeper expansion — any call at depth above 20
returns MaxDepthExceeded immediately with the state untouched, before
scanning anything. -/
theorem claim2_depth_limit :
    ((resolveRoot (chainFs 21) (dInline (cname 1))).1 = .error .maxDepth) ∧
    (∃ out, (resolveRoot (chainFs 20) (dInline (cname 1))).1 = .ok out) ∧
    (∀ (fuel : Nat) (t bd : Str) (d : Nat) (st : BState), d > 20 →
      processTemplate fuel t bd d st = (.error .maxDepth, st)) := by
  refine ⟨?_, ?_, ?_⟩
  · exact deepCheck_sound (chainFs 21) 21 [] SRC_DIR (dInline (cname 1)) (by decide) 21 0
      ⟨chainFs 21, [], [], 0⟩ rfl rfl (cacheOK_init _) rfl (by omega)
  · obtain ⟨out, st', heq, _⟩ := processTemplate_safe (chainFs 20)
      (chainCheck_sound (chainFs 20) 20 [] SRC_DIR (dInline (cname 1)) (by decide))
      21 0 ⟨chainFs 20, [], [], 0⟩ rfl rfl (cacheOK_init _) (by omega) (by omega)
    exact ⟨out, by rw [show resolveRoot (chainFs 20) (dInline (cname 1)) =
      processTemplate 21 (dInline (cname 1)) SRC_DIR 0 ⟨chainFs 20, [], [], 0⟩ from rfl, heq]⟩
  · intro fuel t bd d st hd
    cases fuel with
    | zero => rw [processTemplate, if_pos hd]
    | succ f => rw [processTemplate, if_pos hd]

/-- Witness for claim C2: a call at depth 21 returns MaxDepthExceeded
with the state untouched. -/
theorem claim2_witness :
    processTemplate 0 ([] : Str) SRC_DIR 21 ⟨[], [], [], 0⟩ =
      (.error .maxDepth, (⟨[], [], [], 0⟩ : BState)) :=
  claim2_depth_limit.2.2 0 [] SRC_DIR 21 ⟨[], [], [], 0⟩ (by omega)

/-- Claim C9 counterexample: the acyclic one-edge graph of `fsSplice`
(all referenced fragments exist, nesting depth 1) resolves successfully,
but the fragment's text `{{>x` splices with the `}}` following the
directive in the root template to form `{{>x}}` — the output still
contains directive syntax by the validator's own test. -/
theorem claim9_counterexample :
    (resolveRoot fsSplice (dInline (" a.html ".data) ++ [rb, rb])).1 =
      .ok ([lb, lb, '>', 'x', rb, rb]) ∧
    hasLeftoverDirective [lb, lb, '>', 'x', rb, rb] = true := by decide

/-- Claim C9 (amended): for every store and root template with a `SafeT`
derivation — fragments are concatenations of brace-free literal text and
inline directives, every chain from the root resolves to existing
fragments without revisiting the active stack, and nesting stays within
20 — resolution terminates successfully and the output contains no brace
characters at all, hence no remaining directive syntax. -/
theorem claim9_resolution_complete :
    ∀ (fs : List (Str × Str)) (t : Str) (n : Nat), n ≤ 20 → SafeT fs n [] SRC_DIR t →
      ∃ out st', resolveRoot fs t = (.ok out, st') ∧ braceFree out ∧
        hasLeftoverDirective out = false := by
  intro fs t n hn hsafe
  obtain ⟨out, st', heq, hbf⟩ := processTemplate_safe fs hsafe 21 0 ⟨fs, [], [], 0⟩
    rfl rfl (cacheOK_init fs) (by omega) (by omega)
  exact ⟨out, st', heq, hbf, hasLeftover_of_lbFree (fun c hc => (hbf c hc).1)⟩

/-- Witness for claim C9: a one-link store resolves with no leftover
directive syntax. -/
theorem claim9_witness :
    ∃ out st', resolveRoot fsW (dInline ("a.html".data)) = (.ok out, st') ∧ braceFree out ∧
      hasLeftoverDirective out = false :=
  claim9_resolution_complete fsW (dInline ("a.html".data)) 1 (by omega)
    (chainCheck_sound fsW 1 [] SRC_DIR (dInline ("a.html".data)) (by decide))

theorem buildHTML_eq (ex : Bool) (fs0 : List (Str × Str)) :
    buildHTML ex fs0 =
      if (lookupA fs0 layoutPath).isSome then
        match readFile ⟨fs0, [], [], 0⟩ layoutPath with
        | (.error _, _) => (if ex then .exited 1 else .failed, fs0)
        | (.ok template, st1) =>
          match processTemplate 21 template SRC_DIR 0 st1 with
          | (.error _, _) => (if ex then .exited 1 else .failed, fs0)
          | (.ok processed, st2) => (.ok, setA st2.fs OUTPUT_FILE processed)
      else (if ex then .exited 1 else .failed, fs0) := rfl

/-- Claim C4: whenever a build does not succeed, the store is returned
exactly as it was — the output file is neither produced nor overwritten;
with fail-fast set the outcome is termination with exit code 1, without
it the call merely reports failure; and the store whose layout
references the missing fragment `sections/missing.html` exhibits exactly
these two outcomes. -/
theorem claim4_failed_build_no_output :
    (∀ (ex : Bool) (fs0 : List (Str × Str)),
      (buildHTML ex fs0).1 ≠ .ok → (buildHTML ex fs0).2 = fs0) ∧
    (∀ (ex : Bool) (fs0 : List (Str × Str)),
      (buildHTML ex fs0).1 ≠ .ok →
        (buildHTML ex fs0).1 = (if ex then .exited 1 else .failed)) ∧
    buildHTML true fsMiss = (.exited 1, fsMiss) ∧
    buildHTML false fsMiss = (.failed, fsMiss) := by
  refine ⟨?_, ?_, by decide, by decide⟩
  · intro ex fs0 h
    rw [buildHTML_eq] at h ⊢
    by_cases hl : (lookupA fs0 layoutPath).isSome
    · rw [if_pos hl] at h ⊢
      generalize readFile ⟨fs0, [], [], 0⟩ layoutPath = pr at h ⊢
      rcases pr with ⟨res, st1⟩
      rcases res with e | template
      · rfl
      · dsimp only at h ⊢
        generalize processTemplate 21 template SRC_DIR 0 st1 = pr2 at h ⊢
        rcases pr2 with ⟨res2, st2⟩
        rcases res2 with e | processed
        · rfl
        · exact absurd rfl h
    · rw [if_neg hl] at h ⊢
  · intro ex fs0 h
    rw [buildHTML_eq] at h ⊢
    by_cases hl : (lookupA fs0 layoutPath).isSome
    · rw [if_pos hl] at h ⊢
      generalize readFile ⟨fs0, [], [], 0⟩ layoutPath = pr at h ⊢
      rcases pr with ⟨res, st1⟩
      rcases res with e | template
      · rfl
      · dsimp only at h ⊢
        generalize processTemplate 21 template SRC_DIR 0 st1 = pr2 at h ⊢
        rcases pr2 with ⟨res2, st2⟩
        rcases res2 with e | processed
        · rfl
        · exact absurd rfl h
    · rw [if_neg hl] at h ⊢

/-- Witness for claim C4: the missing-fragment store fails without
fail-fast and its store comes back untouched. -/
theorem claim4_witness :
    (buildHTML false fsMiss).1 ≠ Outcome.ok ∧ (buildHTML false fsMiss).2 = fsMiss :=
  ⟨by decide, claim4_failed_build_no_output.1 false fsMiss (by decide)⟩

/-- Claim C5 counterexample: the block body is not spliced in as plain
text — it passes through the replacement-string dollar-substitution of
the host string replace, so the body of two dollar signs expands the
placeholder fragment to `before $ after`, not to the plain-text
result `before $$ after` the spec prescribes. -/
theorem claim5_counterexample :
    (resolveRoot fsBlk (mkBlock ("p.html".data) (" $$ ".data) ("p.html".data))).1 =
      .ok ("before $ after".data) ∧
    replaceContentSpec ("before ".data ++ contentPH ++ " after".data) (" $$ ".data) =
      ("before $$ after".data) ∧
    ("before $ after".data : Str) ≠ ("before $$ after".data : Str) := by decide

/-- Claim C5 (amended): for every block body free of the dollar
character, the engine substitution coincides with the spec's plain-text
replacement of every placeholder occurrence by the trimmed body; in
particular the placeholder fragment with body `MIDDLE` expands to
`before MIDDLE after`.  (Bodies containing a dollar instead undergo the
replacement-pattern substitution, per the counterexample.) -/
theorem claim5_content_substitution :
    (∀ (body : Str), '$' ∉ body →
      ∀ s, replaceContent s body = replaceContentSpec s body) ∧
    (resolveRoot fsBlk (mkBlock ("p.html".data) ("MIDDLE".data) ("p.html".data))).1 =
      .ok ("before MIDDLE after".data) := by
  refine ⟨?_, by decide⟩
  intro body h s
  exact replaceContent_no_dollar h s

/-- Witness for claim C5: a dollar-free body substitutes exactly as the
spec-side replacement. -/
theorem claim5_witness :
    '$' ∉ ("MID".data : Str) ∧
    replaceContent ("a".data ++ contentPH ++ "b".data) ("MID".data) =
      replaceContentSpec ("a".data ++ contentPH ++ "b".data) ("MID".data) :=
  ⟨by decide, claim5_content_substitution.1 ("MID".data) (by decide)
    ("a".data ++ contentPH ++ "b".data)⟩

/-- Claim C6 counterexample: opening interior `a.html ` and closing
interior ` a.html` have equal trimmed path text, yet the block is not
recognized — the closing marker is re-matched against the captured
opening text literally (a backreference), so the closing interior must
begin with the captured text itself. -/
theorem claim6_counterexample :
    trim ("a.html ".data) = trim (" a.html".data) ∧
    blockAt (mkBlock ("a.html ".data) ("B".data) (" a.html".data)) = none := by decide

/-- Claim C6 (amended): for brace-free marker interiors and body with a
nonempty trimmed opening path, a block directive is recognized exactly
when the two interiors agree after trimming AND the closing interior's
leading whitespace is a suffix of the opening interior's leading
whitespace — not for arbitrary whitespace variation, per the
counterexample. -/
theorem claim6_block_recognition :
    ∀ (O body C : Str), braceFree O → braceFree body → braceFree C → trim O ≠ [] →
      ((blockAt (mkBlock O body C)).isSome ↔
        (trim O = trim C ∧ ∃ w, lws O = w ++ lws C)) := by
  intro O body C hO hB hC hOne
  have hne : O ≠ [] := by
    intro h
    subst h
    exact hOne rfl
  rw [blockAt_mkBlock_iff hO hB hC hne]
  exact marker_decomp_iff hOne

/-- Witness for claim C6: with opening interior ` a.html` and closing
interior `a.html` both sides of the recognition criterion hold. -/
theorem claim6_witness :
    (blockAt (mkBlock (" a.html".data) ("B".data) ("a.html".data))).isSome ↔
      (trim (" a.html".data) = trim ("a.html".data) ∧
        ∃ w, lws (" a.html".data) = w ++ lws ("a.html".data)) :=
  claim6_block_recognition (" a.html".data) ("B".data) ("a.html".data)
    (by decide) (by decide) (by decide) (by decide)

/-- Claim C10: when the referenced fragment has no content placeholder
the substitution returns the fragment text unchanged for every body —
the body is silently discarded; concretely, a block with body
`LOST BODY` over the placeholder-free fragment `X Y` resolves without
error to `X Y` alone, and that output raises no unprocessed-directive
issue. -/
theorem claim10_dropped_body :
    (∀ (s : Str), ¬ HasPH s → ∀ body, replaceContent s body = s) ∧
    (resolveRoot fsNoPH (mkBlock ("q.html".data) ("LOST BODY".data) ("q.html".data))).1 =
      .ok ("X Y".data) ∧
    hasLeftoverDirective ("X Y".data) = false := by
  refine ⟨?_, by decide, by decide⟩
  intro s h body
  exact replaceContent_no_occ h body

/-- Witness for claim C10: the placeholder-free text `X Y` absorbs no
body. -/
theorem claim10_witness :
    ¬ HasPH ("X Y".data) ∧
    replaceContent ("X Y".data) ("LOST".data) = ("X Y".data) := by
  have hnp : ¬ HasPH ("X Y".data) := by
    intro h
    have hsub : hasSub contentPH ("X Y".data) = true :=
      (hasSub_iff contentPH ("X Y".data)).mpr h
    exact absurd hsub (by decide)
  exact ⟨hnp, claim10_dropped_body.1 ("X Y".data) hnp ("LOST".data)⟩

/-- Witness for claim C7: a `partials/` path resolves from the fragment
root, and an unresolvable path at a concrete state yields the not-found
error naming the normalized resolution. -/
theorem claim7_witness :
    resolvePath SRC_DIR ("partials/x.html".data) =
      joinPath SRC_DIR ("partials/x.html".data) ∧
    (inlineStep (processTemplate 0) ("nope.html".data) SRC_DIR 0
        ⟨[], [], [], 0⟩).1 =
      .error (.fileNotFound
        (normalizePath (normalizePath (resolvePath SRC_DIR (trim ("nope.html".data)))))) :=
  ⟨claim7_path_resolution.1 SRC_DIR ("partials/x.html".data) (by decide),
   claim7_path_resolution.2.2.2 (processTemplate 0) ("nope.html".data) SRC_DIR 0
     ⟨[], [], [], 0⟩ (by simp) (by simp [lookupA]) (by simp [lookupA])⟩

/-- Witness for claim C8: a fresh miss on a one-file store reads storage
once and populates the cache with exactly that entry. -/
theorem claim8_witness :
    readFile ⟨[(normalizePath ("a.html".data), "hi".data)], [], [], 0⟩ ("a.html".data) =
      (.ok ("hi".data),
        ⟨[(normalizePath ("a.html".data), "hi".data)],
          [(normalizePath ("a.html".data), "hi".data)], [], 1⟩) :=
  claim8_read_cache.2.1 ⟨[(normalizePath ("a.html".data), "hi".data)], [], [], 0⟩
    ("a.html".data) ("hi".data) (by decide) (by decide)

end BuildJs
